import Mathlib

/-!
# Verification of the typed table store (`src/db.rs`, `src/getset.rs`)

A shallow embedding of the schema/type engine and the table/catalog logic.
Rust's `Type` enum is embedded as `DBType` (`Type` is a Lean keyword); all
other names follow the source.  Machine integers:

* `u64` record identifiers are embedded as `Nat` (the code never does
  arithmetic on them, it only generates, compares and prints them);
* `i64` is embedded as `Int`; the only place its width matters is
  `str::parse::<i64>`, which fails on overflow, and that bound is modelled
  explicitly in `parseI64`;
* `f64` is embedded as `F64`, an exact tagged union of a rational, the two
  infinities and NaN.  The embedding keeps IEEE *comparison* semantics
  (NaN is unordered against everything), which is what the code relies on
  through `PartialOrd::partial_cmp`.

The key-value substrate (`GetSet` + `EasyGet` over a `sled::Tree`) is
embedded as a function store `Store := String → Option Val` where `Val` is
the tagged union of the four structured value shapes the code ever persists;
the codec (`bincode`) round-trips losslessly and is embedded as the
identity, so `get_value::<T>` becomes a shape projection.

A Rust panic (`unwrap` on `None`, `Vec::insert`/`Vec::remove` out of
bounds) is embedded as the `panic` outcome of `OpResult`, which carries the
store as written up to the point of the panic.
-/

/-- The NUL character `'\0'` used by the code as the wildcard sentinel. -/
def nullChar : Char := Char.ofNat 0

/-- Exact model of `f64` for the operations the code performs on it:
comparison (`partial_cmp`), parsing, printing and integer casts.  A finite
float is a rational; NaN is unordered against everything. -/
inductive F64 where
  | num (q : ℚ)
  | inf
  | neginf
  | nan
deriving DecidableEq

/-- `PartialOrd::partial_cmp` on `f64`: total on non-NaN values (with
`-inf < finite < inf`), `None` whenever either side is NaN. -/
def F64.partial_cmp : F64 → F64 → Option Ordering
  | .nan, _ => none
  | _, .nan => none
  | .num a, .num b => some (compare a b)
  | .num _, .inf => some .lt
  | .num _, .neginf => some .gt
  | .inf, .inf => some .eq
  | .inf, _ => some .gt
  | .neginf, .neginf => some .eq
  | .neginf, _ => some .lt

/-- `i64 as f64` (exact for the magnitudes the model cares about). -/
def F64.ofInt (a : Int) : F64 := .num (a : ℚ)

/-- `f64 as i64`: Rust's saturating cast — truncate toward zero, clamp to
the `i64` range, NaN goes to 0. -/
def F64.toI64 : F64 → Int
  | .num q => max (-(2 ^ 63)) (min (2 ^ 63 - 1) q.num.tdiv q.den)
  | .inf => 2 ^ 63 - 1
  | .neginf => -(2 ^ 63)
  | .nan => 0

/-- The source's `Type` enum (`Integer | Char | CharInvl | Real | Str |
StrCI`), renamed `DBType` because `Type` is reserved in Lean. -/
inductive DBType where
  | Integer
  | Char
  | CharInvl (lo hi : Char)
  | Real
  | Str
  | StrCI (lo hi : Char)
deriving DecidableEq

/-- The source's `DBValue` enum. -/
inductive DBValue where
  | Integer (a : Int)
  | Char (c : Char)
  | CharInvl (c : Char)
  | Real (f : F64)
  | Str (s : String)
  | StrCI (s : String)
deriving DecidableEq

/-- `std::mem::discriminant` on `Type`, as a numeric tag in declaration
order. -/
def DBType.tag : DBType → Nat
  | .Integer => 0
  | .Char => 1
  | .CharInvl _ _ => 2
  | .Real => 3
  | .Str => 4
  | .StrCI _ _ => 5

/-- `Type::is_subtype`.  Match arms in source order: the `StrCI('\0','\0')`
wildcard first, then the two interval arms (`RangeInclusive::contains`
twice), then `discriminant(a) == discriminant(b)`. -/
def DBType.is_subtype (self other : DBType) : Bool :=
  match self, other with
  | .StrCI s1 s2, .StrCI o1 o2 =>
      if s1 = nullChar ∧ s2 = nullChar then true
      else (o1 ≤ s1 ∧ s1 ≤ o2) ∧ (o1 ≤ s2 ∧ s2 ≤ o2)
  | .CharInvl s1 s2, .CharInvl o1 o2 =>
      (o1 ≤ s1 ∧ s1 ≤ o2) ∧ (o1 ≤ s2 ∧ s2 ≤ o2)
  | a, b => a.tag = b.tag

/-- `Iterator::min` over a string's chars with `unwrap_or('\0')`. -/
def charsMin (s : String) : Char :=
  match s.data with
  | [] => nullChar
  | c :: cs => cs.foldl (fun a b => if b < a then b else a) c

/-- `Iterator::max` over a string's chars with `unwrap_or('\0')`. -/
def charsMax (s : String) : Char :=
  match s.data with
  | [] => nullChar
  | c :: cs => cs.foldl (fun a b => if a < b then b else a) c

/-- `DBValue::get_type`: the natural (derived) type of a value. -/
def DBValue.get_type : DBValue → DBType
  | .Integer _ => .Integer
  | .Char _ => .Char
  | .CharInvl c => .CharInvl c c
  | .Real _ => .Real
  | .Str _ => .Str
  | .StrCI s => .StrCI (charsMin s) (charsMax s)

/-- `Type::defvalue`. -/
def DBType.defvalue : DBType → DBValue
  | .Integer => .Integer 0
  | .Char => .Char nullChar
  | .CharInvl lo _ => .CharInvl lo
  | .Real => .Real (.num 0)
  | .Str => .Str ""
  | .StrCI _ _ => .StrCI ""

/-- One decimal digit as a character. -/
def digitToChar (d : Nat) : Char := Char.ofNat (48 + d)

/-- Little-endian decimal digits, with structural fuel so the kernel can
evaluate it (the fuel `n + 1` always suffices). -/
def natDigitsGo : Nat → Nat → List Nat
  | _, 0 => []
  | n, fuel + 1 => if n < 10 then [n] else n % 10 :: natDigitsGo (n / 10) fuel

/-- Little-endian decimal digits of a natural number. -/
def natDigits (n : Nat) : List Nat := natDigitsGo n (n + 1)

/-- Decimal rendering of a `u64`/`usize` as `format!` produces it. -/
def u64ToString (n : Nat) : String := ⟨((natDigits n).map digitToChar).reverse⟩

/-- `i64::to_string`. -/
def i64ToString (a : Int) : String :=
  if a < 0 then "-" ++ u64ToString a.natAbs else u64ToString a.natAbs

/-- Decimal digit run: all chars ASCII digits and at least one of them;
its value.  Helper for the two `str::parse` embeddings. -/
def parseDigits (cs : List Char) : Option Nat :=
  if cs = [] then none
  else cs.foldlM (fun acc c =>
    if c.isDigit then some (acc * 10 + (c.toNat - 48)) else none) 0

/-- Total digit value (callers have already checked the digits). -/
def digitsNat (cs : List Char) : Nat :=
  cs.foldl (fun acc c => acc * 10 + (c.toNat - 48)) 0

/-- `str::parse::<i64>`: optional sign, one or more ASCII digits, failure
on anything else or on overflow of the `i64` range. -/
def parseI64 (s : String) : Option Int :=
  match s.data with
  | [] => none
  | '+' :: rest =>
      (parseDigits rest).bind fun n =>
        if (n : Int) ≤ 2 ^ 63 - 1 then some (n : Int) else none
  | '-' :: rest =>
      (parseDigits rest).bind fun n =>
        if (n : Int) ≤ 2 ^ 63 then some (-(n : Int)) else none
  | cs =>
      (parseDigits cs).bind fun n =>
        if (n : Int) ≤ 2 ^ 63 - 1 then some (n : Int) else none

/-- Split a char list at the first char satisfying `p`; `none` when no
char does. -/
def splitOnce (p : Char → Bool) : List Char → List Char × Option (List Char)
  | [] => ([], none)
  | c :: cs =>
      if p c then ([], some cs)
      else
        let r := splitOnce p cs
        (c :: r.1, r.2)

/-- Mantissa of a float literal: `digits`, `digits.digits`, `digits.` or
`.digits` — at least one digit, nothing but digits and one dot. -/
def mantissaVal (cs : List Char) : Option ℚ :=
  let r := splitOnce (· = '.') cs
  match r.2 with
  | none => (parseDigits r.1).map fun n => (n : ℚ)
  | some fp =>
      if r.1.all Char.isDigit ∧ fp.all Char.isDigit ∧ (r.1 ≠ [] ∨ fp ≠ []) then
        some ((digitsNat r.1 : ℚ) + (digitsNat fp : ℚ) / (10 : ℚ) ^ fp.length)
      else none

/-- `str::parse::<f64>`: optional sign, then case-insensitive
`inf`/`infinity`/`nan` or a decimal mantissa with optional `e`/`E`
exponent.  The model keeps the exact rational value where Rust rounds to
the nearest `f64`; no claim depends on that rounding. -/
def parseF64 (s : String) : Option F64 :=
  let go : List Char → Bool → Option F64 := fun cs neg =>
    let low := cs.map Char.toLower
    if low = "inf".data ∨ low = "infinity".data then
      some (if neg then .neginf else .inf)
    else if low = "nan".data then some .nan
    else
      let me := splitOnce (fun c => c = 'e' ∨ c = 'E') cs
      let expVal : Option Int :=
        match me.2 with
        | none => some 0
        | some ec =>
            match ec with
            | '+' :: ds => (parseDigits ds).map fun n => (n : Int)
            | '-' :: ds => (parseDigits ds).map fun n => -(n : Int)
            | ds => (parseDigits ds).map fun n => (n : Int)
      match mantissaVal me.1, expVal with
      | some q, some ex =>
          some (.num ((if neg then -q else q) * (10 : ℚ) ^ ex))
      | _, _ => none
  match s.data with
  | [] => none
  | '+' :: rest => go rest false
  | '-' :: rest => go rest true
  | cs => go cs false

/-- `f64` `Display`, used by `coerce` for `Real → Str` only.  Finite values
print sign, integer part and the first 20 digits of the exact fractional
expansion with trailing zeros dropped; Rust prints the shortest
round-tripping decimal.  No claim depends on the rendered text. -/
def F64.toDisplay : F64 → String
  | .nan => "NaN"
  | .inf => "inf"
  | .neginf => "-inf"
  | .num q =>
      let aq : ℚ := |q|
      let ip : Nat := aq.floor.toNat
      let fracDigits :=
        ((List.range 20).foldl
          (fun (st : ℚ × List Nat) _ =>
            let r := st.1 * 10
            (r - (r.floor : ℚ), st.2 ++ [r.floor.toNat]))
          (aq - (aq.floor : ℚ), [])).2
      let fd := (fracDigits.reverse.dropWhile (· = 0)).reverse
      (if q < 0 then "-" else "") ++ u64ToString ip ++
        (if fd = [] then "" else "." ++ (⟨fd.map digitToChar⟩ : String))

/-- What `coerce` does on a `StrCI` value against a `StrCI` target: the
head subtype test succeeds or no later match arm covers the pair, so the
result is the value itself or `None`.  The `Str → StrCI` arm of `coerce`
delegates to exactly this (`DBValue::StrCI(s.to_string()).coerce(..)`);
naming it keeps `coerce` structurally recursive, and
`coerce_strci_delegate` below checks the delegation is preserved. -/
def strCIcoerce (s : String) (lo hi : Char) : Option DBValue :=
  if (DBValue.StrCI s).get_type.is_subtype (.StrCI lo hi) then some (.StrCI s)
  else none

/-- `DBValue::coerce`: a widening no-op when the natural type is already a
subtype of the target, otherwise the single-step directed conversions of
the source's match, in source order. -/
def DBValue.coerce (self : DBValue) (t : DBType) : Option DBValue :=
  if self.get_type.is_subtype t then some self
  else match self, t with
    | .Integer a, .Real => some (.Real (F64.ofInt a))
    | .Integer a, .Str => some (.Str (i64ToString a))
    | .Real f, .Integer => some (.Integer f.toI64)
    | .Real f, .Str => some (.Str f.toDisplay)
    | .Char c, .Str => some (.Str (String.singleton c))
    | .Char c, .CharInvl lo hi =>
        if lo ≤ c ∧ c ≤ hi then some (.CharInvl c) else none
    | .Char c, .StrCI lo hi | .CharInvl c, .StrCI lo hi =>
        if lo ≤ c ∧ c ≤ hi then some (.StrCI (String.singleton c)) else none
    | .CharInvl c, .Char => some (.Char c)
    | .CharInvl c, .Str => some (.Str (String.singleton c))
    | .Str s, .Integer => (parseI64 s).map .Integer
    | .Str s, .Real => (parseF64 s).map .Real
    | .Str s, .StrCI lo hi => strCIcoerce s lo hi
    | .StrCI s, .Integer => (parseI64 s).map .Integer
    | .StrCI s, .Real => (parseF64 s).map .Real
    | .StrCI s, .Str => some (.Str s)
    | _, _ => none

/-- The source's `Column` struct. -/
structure Column where
  name : String
  ctype : DBType
deriving DecidableEq

/-- The source's `Schema` struct. -/
structure Schema where
  columns : List Column
deriving DecidableEq

/-- The source's `Record` struct. -/
structure Record where
  ident : Nat
  value : List DBValue
deriving DecidableEq

/-- `Schema::column_types`. -/
def Schema.column_types (s : Schema) : List DBType := s.columns.map Column.ctype

/-- `Schema::match_record`: length check, then positional subtype check of
each value's natural type against its column's type. -/
def Schema.match_record (s : Schema) (values : List DBValue) : Bool :=
  if values.length ≠ s.columns.length then false
  else ((values.map DBValue.get_type).zip s.column_types).all fun p =>
    p.1.is_subtype p.2

/-- The source's `DBError` enum. -/
inductive DBError where
  | OpenError
  | StoreError
  | DatabaseNotFound
  | TableNotFound
  | TableExists
  | RecordNotFound
  | TypeMismatch
  | InvalidColumn
  | ColumnExists
  | InvalidPosition
deriving DecidableEq

/-- Discriminant of `DBValue` in declaration order, for the derived
`PartialOrd`'s cross-variant comparison. -/
def DBValue.vtag : DBValue → Nat
  | .Integer _ => 0
  | .Char _ => 1
  | .CharInvl _ => 2
  | .Real _ => 3
  | .Str _ => 4
  | .StrCI _ => 5

/-- The `PartialOrd` Rust derives for `DBValue`: discriminants in
declaration order first, fields on equal discriminants; `None` exactly
when two `Real` fields are NaN-incomparable. -/
def DBValue.partial_cmp (a b : DBValue) : Option Ordering :=
  match a, b with
  | .Integer x, .Integer y => some (compare x y)
  | .Char x, .Char y => some (compare x y)
  | .CharInvl x, .CharInvl y => some (compare x y)
  | .Real x, .Real y => F64.partial_cmp x y
  | .Str x, .Str y => some (compare x y)
  | .StrCI x, .StrCI y => some (compare x y)
  | x, y => some (compare x.vtag y.vtag)

/-- The structured values the code ever persists (`bincode` round-trips
them losslessly, so the codec is embedded as the identity): the catalog's
table-name list at `/`, a table's identifier index at `/<table>`, a schema
at `#<table>`, a record's value sequence at `$<identifier>`. -/
inductive Val where
  | tables (ts : List String)
  | index (ids : List Nat)
  | schema (s : Schema)
  | record (vs : List DBValue)
deriving DecidableEq

/-- The key-value substrate (`GetSet` over one `sled::Tree`). -/
abbrev Store := String → Option Val

/-- `GetSet::has_key`. -/
def Store.hasKey (st : Store) (k : String) : Bool := (st k).isSome

/-- `EasyGet::set_value`. -/
def Store.set (st : Store) (k : String) (v : Val) : Store :=
  fun q => if q = k then some v else st q

/-- Key removal; `GetSet::del` for `sled::Tree` reports `is_ok()`, which is
`true` whether or not the key existed. -/
def Store.del (st : Store) (k : String) : Store × Bool :=
  (fun q => if q = k then none else st q, true)

/-- `get_value::<Vec<String>>`: the shape projection standing for
deserialization (the code only ever reads a key with the shape it wrote). -/
def Store.getTablesVal (st : Store) (k : String) : Option (List String) :=
  match st k with
  | some (.tables ts) => some ts
  | _ => none

/-- `get_value::<Vec<u64>>`. -/
def Store.getIndexVal (st : Store) (k : String) : Option (List Nat) :=
  match st k with
  | some (.index ids) => some ids
  | _ => none

/-- `get_value::<Schema>`. -/
def Store.getSchemaVal (st : Store) (k : String) : Option Schema :=
  match st k with
  | some (.schema s) => some s
  | _ => none

/-- `get_value::<Vec<DBValue>>`. -/
def Store.getRecordVal (st : Store) (k : String) : Option (List DBValue) :=
  match st k with
  | some (.record vs) => some vs
  | _ => none

/-- The record blob key `format!("${}", identifier)`. -/
def blobKey (id : Nat) : String := "$" ++ u64ToString id

/-- The outcome of one operation against the substrate: a result or a
`DBError`, or a Rust panic; each carries the store as written when the
operation ended (a panic can leave a multi-key sequence half done). -/
inductive OpResult (α : Type) where
  | ok (a : α) (st : Store)
  | err (e : DBError) (st : Store)
  | panic (st : Store)

/-- The store an operation left behind, whatever its outcome. -/
def OpResult.store : OpResult α → Store
  | .ok _ st => st
  | .err _ st => st
  | .panic st => st

/-- The source's `Table` struct: name, schema and the in-memory identifier
index (the `&mut KV` is passed separately as the `Store`). -/
structure Table where
  name : String
  schema : Schema
  records : List Nat
deriving DecidableEq

/-- `Table::update`: persist the index at `/<name>` then the schema at
`#<name>`. -/
def Table.update (t : Table) (st : Store) : Store :=
  (st.set ("/" ++ t.name) (.index t.records)).set ("#" ++ t.name) (.schema t.schema)

/-- `Vec::remove(idx)`: `none` models the out-of-bounds panic. -/
def vecRemoveOpt : List α → Nat → Option (α × List α)
  | [], _ => none
  | x :: xs, 0 => some (x, xs)
  | x :: xs, n + 1 => (vecRemoveOpt xs n).map fun r => (r.1, x :: r.2)

/-- `Vec::insert(idx, v)`: `none` models the `idx > len` panic. -/
def vecInsertOpt : List α → Nat → α → Option (List α)
  | xs, 0, v => some (v :: xs)
  | [], _ + 1, _ => none
  | x :: xs, n + 1, v => (vecInsertOpt xs n v).map (x :: ·)

/-- The identifier loop of `add_record`: `thread_rng().gen()` redrawn while
`$<k>` is already a key of the substrate.  `draws` is the generator's
output stream; `none` stands for the probability-zero event that the
modelled finite stream never leaves the collision loop. -/
def genIdent (st : Store) : List Nat → Option Nat
  | [] => none
  | k :: rest => if st.hasKey (blobKey k) then genIdent st rest else some k

/-- `Table::get_records`: materialize every record in index order; `none`
models the `unwrap` panic on a missing blob (nothing is written). -/
def Table.get_records (t : Table) (st : Store) : Option (List Record) :=
  t.records.mapM fun id => (st.getRecordVal (blobKey id)).map fun v => ⟨id, v⟩

/-- `Table::add_record`. -/
def Table.add_record (t : Table) (value : List DBValue) (draws : List Nat)
    (st : Store) : OpResult (Table × Nat) :=
  if ¬t.schema.match_record value then .err .TypeMismatch st
  else
    match genIdent st draws with
    | none => .panic st
    | some k =>
        let st1 := st.set (blobKey k) (.record value)
        let t2 : Table := { t with records := t.records ++ [k] }
        .ok (t2, k) (t2.update st1)

/-- `Table::upd_record`. -/
def Table.upd_record (t : Table) (ident : Nat) (value : List DBValue)
    (st : Store) : OpResult Table :=
  if (t.records.find? (fun idx => idx == ident)).isNone then .err .RecordNotFound st
  else if ¬t.schema.match_record value then .err .TypeMismatch st
  else .ok t (st.set (blobKey ident) (.record value))

/-- `Table::del_record`. -/
def Table.del_record (t : Table) (ident : Nat) (st : Store) : OpResult Table :=
  match t.records.findIdx? (fun x => x == ident) with
  | none => .err .RecordNotFound st
  | some idx =>
      let t2 : Table := { t with records := t.records.eraseIdx idx }
      let st1 := t2.update st
      .ok t2 (st1.del (blobKey ident)).1

/-- `Table::del_record_by_idx`. -/
def Table.del_record_by_idx (t : Table) (idx : Nat) (st : Store) : OpResult Table :=
  match t.records.get? idx with
  | none => .err .RecordNotFound st
  | some rid => t.del_record rid st

/-- `Table::upd_record_by_idx`. -/
def Table.upd_record_by_idx (t : Table) (idx : Nat) (value : List DBValue)
    (st : Store) : OpResult Table :=
  match t.records.get? idx with
  | none => .err .RecordNotFound st
  | some rid => t.upd_record rid value st

/-- One insertion step of the sort's comparison order; `none` as soon as
the comparator is `None` (the `unwrap` panic). -/
def insertCmp (cmp : Record → Record → Option Ordering) (a : Record) :
    List Record → Option (List Record)
  | [] => some [a]
  | b :: bs =>
      match cmp a b with
      | none => none
      | some .lt => some (a :: b :: bs)
      | some _ => (insertCmp cmp a bs).map (b :: ·)

/-- `slice::sort_by` with a panicking comparator, modelled as a stable
insertion sort: `none` when the comparator hits an incomparable pair (the
real merge sort also invokes the comparator on every adjacent pair of a
two-element slice, which is the shape the claims evaluate). -/
def sortByCmp (cmp : Record → Record → Option Ordering) :
    List Record → Option (List Record)
  | [] => some []
  | a :: rest => (sortByCmp cmp rest).bind (insertCmp cmp a)

/-- `Table::sort_records`: `records.sort_by(|a, b|
a.value[idx].partial_cmp(&b.value[idx]).unwrap())` — the indexings and the
`unwrap` all panic through the `Option`. -/
def Table.sort_records (t : Table) (key : String) (st : Store) :
    OpResult (List Record) :=
  match t.schema.columns.findIdx? (fun c => c.name == key) with
  | none => .err .InvalidColumn st
  | some idx =>
      match t.get_records st with
      | none => .panic st
      | some records =>
          let cmp : Record → Record → Option Ordering := fun a b =>
            match a.value.get? idx, b.value.get? idx with
            | some x, some y => x.partial_cmp y
            | _, _ => none
          match sortByCmp cmp records with
          | none => .panic st
          | some sorted => .ok sorted st

/-- Write loop shared by the column mutations: one `set_value` per record
with its rewritten value sequence; `false` when a rewrite panics, keeping
the writes made so far. -/
def writeRecords (f : Record → Option (List DBValue)) :
    Store → List Record → Store × Bool
  | st, [] => (st, true)
  | st, r :: rs =>
      match f r with
      | none => (st, false)
      | some v => writeRecords f (st.set (blobKey r.ident) (.record v)) rs

/-- `Table::add_column`. -/
def Table.add_column (t : Table) (column : Column) (idxOpt : Option Nat)
    (st : Store) : OpResult Table :=
  let cur_idx := t.schema.columns.findIdx? (fun c => c.name == column.name)
  let idx := idxOpt.getD t.schema.columns.length
  if cur_idx.isSome then .err .ColumnExists st
  else if idx > t.schema.columns.length then .err .InvalidPosition st
  else
    let val := column.ctype.defvalue
    match vecInsertOpt t.schema.columns idx column with
    | none => .panic st
    | some cols =>
        let t2 : Table := { t with schema := ⟨cols⟩ }
        match t2.get_records st with
        | none => .panic st
        | some recs =>
            let w := writeRecords (fun r => vecInsertOpt r.value idx val) st recs
            if w.2 then .ok t2 (t2.update w.1) else .panic w.1

/-- `Table::del_column`. -/
def Table.del_column (t : Table) (column : String) (st : Store) :
    OpResult Table :=
  match t.schema.columns.findIdx? (fun c => c.name == column) with
  | none => .err .InvalidColumn st
  | some idx =>
      match vecRemoveOpt t.schema.columns idx with
      | none => .panic st
      | some cr =>
          let t2 : Table := { t with schema := ⟨cr.2⟩ }
          match t2.get_records st with
          | none => .panic st
          | some recs =>
              let w := writeRecords (fun r => (vecRemoveOpt r.value idx).map Prod.snd) st recs
              if w.2 then .ok t2 (t2.update w.1) else .panic w.1

/-- `Table::move_column`: find the column, bound-check `idx` against the
*unshortened* column count, remove, insert, then rewrite every record. -/
def Table.move_column (t : Table) (column : String) (idx : Nat) (st : Store) :
    OpResult Table :=
  match t.schema.columns.findIdx? (fun c => c.name == column) with
  | none => .err .InvalidColumn st
  | some old_idx =>
      if idx > t.schema.columns.length then .err .InvalidPosition st
      else
        match vecRemoveOpt t.schema.columns old_idx with
        | none => .panic st
        | some cr =>
            match vecInsertOpt cr.2 idx cr.1 with
            | none => .panic st
            | some cols =>
                let t2 : Table := { t with schema := ⟨cols⟩ }
                match t2.get_records st with
                | none => .panic st
                | some recs =>
                    let w := writeRecords
                      (fun r => (vecRemoveOpt r.value old_idx).bind fun vr =>
                        vecInsertOpt vr.2 idx vr.1) st recs
                    if w.2 then .ok t2 (t2.update w.1) else .panic w.1

/-- Outcome of the compute phase of `upd_column` on one record or on the
whole list: a rewritten value, a failed coercion (`TypeMismatch` via
`ok_or(..)?`), or an out-of-bounds `Vec::remove`/`Vec::insert` panic. -/
inductive Phase (α : Type) where
  | ok (a : α)
  | mismatch
  | panicked
deriving DecidableEq

/-- One iteration of `upd_column`'s compute loop: clone the value list,
`remove(idx)`, coerce to the new column's type, `insert(idx, ..)` back. -/
def rewriteRecord (idx : Nat) (ty : DBType) (r : Record) : Phase Record :=
  match vecRemoveOpt r.value idx with
  | none => .panicked
  | some vr =>
      match vr.1.coerce ty with
      | none => .mismatch
      | some val =>
          match vecInsertOpt vr.2 idx val with
          | none => .panicked
          | some newr => .ok ⟨r.ident, newr⟩

/-- `upd_column`'s compute loop over all records, stopping at the first
failure — no write has happened yet at that point. -/
def rewriteAll (idx : Nat) (ty : DBType) : List Record → Phase (List Record)
  | [] => .ok []
  | r :: rs =>
      match rewriteRecord idx ty r with
      | .panicked => .panicked
      | .mismatch => .mismatch
      | .ok r2 =>
          match rewriteAll idx ty rs with
          | .panicked => .panicked
          | .mismatch => .mismatch
          | .ok rs2 => .ok (r2 :: rs2)

/-- `Table::upd_column`: compute every rewritten record first, then commit
the blobs, then swap the schema column in place. -/
def Table.upd_column (t : Table) (old : String) (newc : Column) (st : Store) :
    OpResult Table :=
  match t.schema.columns.findIdx? (fun c => c.name == old) with
  | none => .err .InvalidColumn st
  | some idx =>
      let nidx := t.schema.columns.findIdx? (fun c => c.name == newc.name)
      if nidx.isSome && newc.name != old then .err .ColumnExists st
      else
        match t.get_records st with
        | none => .panic st
        | some recs =>
            match rewriteAll idx newc.ctype recs with
            | .panicked => .panic st
            | .mismatch => .err .TypeMismatch st
            | .ok newrs =>
                let st1 := newrs.foldl
                  (fun s r => s.set (blobKey r.ident) (.record r.value)) st
                match vecRemoveOpt t.schema.columns idx with
                | none => .panic st1
                | some cr =>
                    match vecInsertOpt cr.2 idx newc with
                    | none => .panic st1
                    | some cols =>
                        let t2 : Table := { t with schema := ⟨cols⟩ }
                        .ok t2 (t2.update st1)

/-- `DB::get_tables`: the catalog list at `/`. -/
def DB.get_tables (st : Store) : Except DBError (List String) :=
  match st.getTablesVal "/" with
  | none => .error .TableNotFound
  | some tv => .ok tv

/-- `DB::add_table`: refuse an existing `/<name>` key, persist the empty
index and the schema, then append the name to the catalog list. -/
def DB.add_table (name : String) (schema : Schema) (st : Store) :
    OpResult Unit :=
  let k := "/" ++ name
  if st.hasKey k then .err .TableExists st
  else
    let tab : Table := ⟨name, schema, []⟩
    let st1 := tab.update st
    match DB.get_tables st1 with
    | .error e => .err e st1
    | .ok tv => .ok () (st1.set "/" (.tables (tv ++ [name])))

/-- `DB::remove_table`: drop the name from the catalog list and delete the
index key `/<name>` (and nothing else). -/
def DB.remove_table (name : String) (st : Store) : OpResult Unit :=
  let k := "/" ++ name
  if ¬st.hasKey k then .err .TableNotFound st
  else
    match DB.get_tables st with
    | .error e => .err e st
    | .ok tv =>
        match tv.findIdx? (fun x => x == name) with
        | none => .err .TableNotFound st
        | some idx =>
            let st1 := st.set "/" (.tables (tv.eraseIdx idx))
            let d := st1.del k
            if d.2 then .ok () d.1 else .err .StoreError d.1

/-- `DB::get_table`: load the persisted index and schema into a live
handle. -/
def DB.get_table (name : String) (st : Store) : Except DBError Table :=
  match st.getIndexVal ("/" ++ name) with
  | none => .error .TableNotFound
  | some recs =>
      match st.getSchemaVal ("#" ++ name) with
      | none => .error .TableNotFound
      | some schema => .ok ⟨name, schema, recs⟩

/-- Did the operation succeed? -/
def OpResult.isOk : OpResult α → Bool
  | .ok _ _ => true
  | _ => false

/-- Did the operation panic? -/
def OpResult.isPanic : OpResult α → Bool
  | .panic _ => true
  | _ => false

/-- The error the operation returned, if any. -/
def OpResult.errOf : OpResult α → Option DBError
  | .err e _ => some e
  | _ => none

/-- The result the operation returned, if any. -/
def OpResult.resOf : OpResult α → Option α
  | .ok a _ => some a
  | _ => none

/-- The error of a fallible read, if any. -/
def exceptErr : Except DBError α → Option DBError
  | .error e => some e
  | .ok _ => none

/-- The store a fresh database starts from: `DB::new` writes the empty
catalog list at `/`. -/
def dbInit : Store := fun k => if k = "/" then some (.tables []) else none

/-- Interval bounds in order — the shape every interval the system itself
compares values against is written with. -/
def DBType.wfInterval : DBType → Prop
  | .CharInvl lo hi => lo ≤ hi
  | .StrCI lo hi => lo ≤ hi
  | _ => True

/-- Scenario for the table-removal claim, step 1: create table `t` with
one `Integer` column in a fresh database. -/
def c1St1 : Store := (DB.add_table "t" ⟨[⟨"c", DBType.Integer⟩]⟩ dbInit).store

/-- The handle `get_table "t"` returns after step 1. -/
def c1Tab : Table := ⟨"t", ⟨[⟨"c", DBType.Integer⟩]⟩, []⟩

/-- Step 2: insert one record; the generator draws identifier 5. -/
def c1St2 : Store := (c1Tab.add_record [.Integer 7] [5] c1St1).store

/-- Step 3: remove the table. -/
def c1St3 : Store := (DB.remove_table "t" c1St2).store

/-- Scenario for the sort claim: a table with one `Real` column and two
records, one of them NaN. -/
def c3Store : Store := fun k =>
  if k = "$1" then some (.record [.Real .nan])
  else if k = "$2" then some (.record [.Real (.num 1)])
  else if k = "/t" then some (.index [1, 2])
  else if k = "#t" then some (.schema ⟨[⟨"r", DBType.Real⟩]⟩)
  else if k = "/" then some (.tables ["t"]) else none

/-- The handle `get_table "t"` returns on `c3Store`. -/
def c3Tab : Table := ⟨"t", ⟨[⟨"r", DBType.Real⟩]⟩, [1, 2]⟩

/-- Scenario for the move-column claim: a table with a single column
`a`. -/
def c7Tab : Table := ⟨"t", ⟨[⟨"a", DBType.Integer⟩]⟩, []⟩

def c2Store : Store := fun k =>
  if k = "$1" then some (.record [.Str "3"])
  else if k = "$2" then some (.record [.Str "x"])
  else if k = "/t" then some (.index [1, 2])
  else if k = "#t" then some (.schema ⟨[⟨"c", DBType.Str⟩]⟩)
  else if k = "/" then some (.tables ["t"]) else none

def ofDigits : List Nat → Nat
  | [] => 0
  | d :: ds => d + 10 * ofDigits ds

/-- One transport-level table operation as `routes.rs` drives it: resolve
the handle with `get_table` (a failure leaves the store untouched), apply
the operation, keep whatever it wrote. -/
def runTableOp (name : String) (f : Table → Store → Store) (st : Store) : Store :=
  match DB.get_table name st with
  | .error _ => st
  | .ok t => f t st

/-- One externally invokable mutating operation of the database, as the
transport layer exposes them; each transition keeps the store the
operation left behind, panics and errors included. -/
inductive Step : Store → Store → Prop where
  | add_table (st : Store) (name : String) (schema : Schema) :
      Step st (DB.add_table name schema st).store
  | remove_table (st : Store) (name : String) :
      Step st (DB.remove_table name st).store
  | add_record (st : Store) (name : String) (value : List DBValue)
      (draws : List Nat) :
      Step st (runTableOp name (fun t s => (t.add_record value draws s).store) st)
  | upd_record (st : Store) (name : String) (ident : Nat) (value : List DBValue) :
      Step st (runTableOp name (fun t s => (t.upd_record ident value s).store) st)
  | del_record (st : Store) (name : String) (ident : Nat) :
      Step st (runTableOp name (fun t s => (t.del_record ident s).store) st)
  | del_record_by_idx (st : Store) (name : String) (idx : Nat) :
      Step st (runTableOp name (fun t s => (t.del_record_by_idx idx s).store) st)
  | upd_record_by_idx (st : Store) (name : String) (idx : Nat)
      (value : List DBValue) :
      Step st (runTableOp name (fun t s => (t.upd_record_by_idx idx value s).store) st)
  | add_column (st : Store) (name : String) (column : Column)
      (idxOpt : Option Nat) :
      Step st (runTableOp name (fun t s => (t.add_column column idxOpt s).store) st)
  | del_column (st : Store) (name : String) (cname : String) :
      Step st (runTableOp name (fun t s => (t.del_column cname s).store) st)
  | move_column (st : Store) (name : String) (cname : String) (idx : Nat) :
      Step st (runTableOp name (fun t s => (t.move_column cname idx s).store) st)
  | upd_column (st : Store) (name : String) (old : String) (newc : Column) :
      Step st (runTableOp name (fun t s => (t.upd_column old newc s).store) st)

/-- A database state the system can actually be in: finitely many
operations applied to a fresh database. -/
def Reachable (st : Store) : Prop := Relation.ReflTransGen Step dbInit st

/-- The cross-table identifier invariant: every persisted index is
duplicate-free, every indexed identifier owns a record blob, and the
indexes of two different keys never share an identifier. -/
structure DBInv (st : Store) : Prop where
  nodup : ∀ k ids, st k = some (.index ids) → ids.Nodup
  blobs : ∀ k ids, st k = some (.index ids) →
    ∀ id ∈ ids, ∃ vs, st (blobKey id) = some (.record vs)
  disj : ∀ k1 k2 ids1 ids2, k1 ≠ k2 → st k1 = some (.index ids1) →
    st k2 = some (.index ids2) → ∀ id ∈ ids1, id ∉ ids2


lemma match_aux : ∀ (vs : List DBValue) (cols : List Column),
    ((((vs.map DBValue.get_type).zip (cols.map Column.ctype)).all fun p =>
        p.1.is_subtype p.2) = true ↔
      ∀ i, i < min vs.length cols.length →
        ((vs.getD i (.Integer 0)).get_type.is_subtype
          ((cols.getD i ⟨"", .Integer⟩).ctype)) = true) := by
  intro vs
  induction vs with
  | nil => intro cols; simp
  | cons v vs ih =>
    intro cols
    cases cols with
    | nil => simp
    | cons c cols =>
      simp only [List.map_cons, List.zip_cons_cons, List.all_cons, Bool.and_eq_true,
        List.length_cons]
      rw [ih cols]
      constructor
      · rintro ⟨h1, h2⟩ i hi
        cases i with
        | zero => simpa using h1
        | succ n =>
          simp only [List.getD_cons_succ]
          exact h2 n (by omega)
      · intro h
        refine ⟨by simpa using h 0 (by omega), fun n hn => ?_⟩
        have := h (n + 1) (by omega)
        simpa using this

/-- C4: `validate` (`Schema::match_record`) holds exactly when the value
sequence has the schema's length and, positionally, each value's natural
(derived) type is a subtype of its column's type. -/
theorem match_record_iff (S : Schema) (V : List DBValue) :
    S.match_record V = true ↔
      V.length = S.columns.length ∧
      ∀ i, i < V.length →
        ((V.getD i (.Integer 0)).get_type.is_subtype
          ((S.columns.getD i ⟨"", .Integer⟩).ctype)) = true := by
  unfold Schema.match_record
  by_cases h : V.length = S.columns.length
  · rw [if_neg (by omega)]
    unfold Schema.column_types
    rw [match_aux V S.columns]
    constructor
    · intro hall
      exact ⟨h, fun i hi => hall i (by omega)⟩
    · rintro ⟨_, h2⟩ i hi
      exact h2 i (by omega)
  · rw [if_pos (by omega)]
    simp only [Bool.false_eq_true, false_iff, not_and]
    intro h1
    exact absurd h1 h

/-- C5 counterexample: `is_subtype` is NOT reflexive for every `Type`
value — on the inverted interval `CharInvl('b','a')` the
`RangeInclusive::contains` checks fail against itself. -/
theorem is_subtype_irrefl_inverted :
    (DBType.CharInvl 'b' 'a').is_subtype (DBType.CharInvl 'b' 'a') = false := by
  decide

/-- C5 (amended): `is_subtype` is reflexive for every `Type` whose
interval bounds (if any) are in order `lo ≤ hi`; for non-inverted
sub-intervals the `CharInvl`/`StrCI` pair is a subtype exactly when the
bounds are contained (`c ≤ a ∧ b ≤ d`); the wildcard sentinel
`StrCI('\0','\0')` is a subtype of every `StrCI`; all cross-tag pairs
are not subtypes; and the relation is not symmetric on intervals:
`CharInvl('2','4') ≤ CharInvl('0','9')` holds in exactly one
direction. -/
theorem is_subtype_amended :
    (∀ t : DBType, t.wfInterval → t.is_subtype t = true)
    ∧ (∀ a b c d : Char, a ≤ b →
        ((DBType.CharInvl a b).is_subtype (DBType.CharInvl c d) = true ↔
          c ≤ a ∧ b ≤ d))
    ∧ (∀ c d : Char,
        (DBType.StrCI nullChar nullChar).is_subtype (DBType.StrCI c d) = true)
    ∧ (∀ a b c d : Char, a ≤ b → ¬(a = nullChar ∧ b = nullChar) →
        ((DBType.StrCI a b).is_subtype (DBType.StrCI c d) = true ↔
          c ≤ a ∧ b ≤ d))
    ∧ (∀ a b : DBType, a.tag ≠ b.tag → a.is_subtype b = false)
    ∧ ((DBType.CharInvl '2' '4').is_subtype (DBType.CharInvl '0' '9') = true
        ∧ (DBType.CharInvl '0' '9').is_subtype (DBType.CharInvl '2' '4') = false) := by
  refine ⟨?_, ?_, ?_, ?_, ?_, by decide, by decide⟩
  · intro t hwf
    cases t with
    | CharInvl lo hi =>
      simp only [DBType.wfInterval] at hwf
      simp [DBType.is_subtype, hwf, le_refl]
    | StrCI lo hi =>
      simp only [DBType.wfInterval] at hwf
      by_cases h0 : lo = nullChar ∧ hi = nullChar
      · simp [DBType.is_subtype, h0]
      · simp [DBType.is_subtype, h0, hwf, le_refl]
    | Integer => decide
    | Char => decide
    | Real => decide
    | Str => decide
  · intro a b c d hab
    simp only [DBType.is_subtype, decide_eq_true_eq]
    constructor
    · rintro ⟨⟨h1, _⟩, ⟨_, h4⟩⟩
      exact ⟨h1, h4⟩
    · rintro ⟨h1, h2⟩
      exact ⟨⟨h1, le_trans hab h2⟩, ⟨le_trans h1 hab, h2⟩⟩
  · intro c d
    simp [DBType.is_subtype]
  · intro a b c d hab hnot
    simp only [DBType.is_subtype, if_neg hnot, decide_eq_true_eq]
    constructor
    · rintro ⟨⟨h1, _⟩, ⟨_, h4⟩⟩
      exact ⟨h1, h4⟩
    · rintro ⟨h1, h2⟩
      exact ⟨⟨h1, le_trans hab h2⟩, ⟨le_trans h1 hab, h2⟩⟩
  · intro a b htag
    cases a <;> cases b <;> simp_all [DBType.is_subtype, DBType.tag]

/-- C9: for a `StrCI(lo,hi)` column of any bounds, the empty string value
`StrCI("")` passes validation — its derived type is the wildcard sentinel
`StrCI('\0','\0')`, a subtype of every `StrCI` — so `add_record` and
`upd_record` accept it. -/
theorem strci_empty_passes (lo hi : Char) (cname : String) :
    ((DBValue.StrCI "").get_type = DBType.StrCI nullChar nullChar
      ∧ (DBValue.StrCI "").get_type.is_subtype (DBType.StrCI lo hi) = true)
    ∧ Schema.match_record ⟨[⟨cname, .StrCI lo hi⟩]⟩ [.StrCI ""] = true
    ∧ (∀ (t : Table) (st : Store) (draws : List Nat) (k : Nat),
        t.schema = ⟨[⟨cname, .StrCI lo hi⟩]⟩ →
        genIdent st draws = some k →
        ∃ t2 st2, t.add_record [.StrCI ""] draws st = .ok (t2, k) st2)
    ∧ (∀ (t : Table) (st : Store) (ident : Nat),
        t.schema = ⟨[⟨cname, .StrCI lo hi⟩]⟩ →
        (t.records.find? (fun i => i == ident)).isSome = true →
        ∃ st2, t.upd_record ident [.StrCI ""] st = .ok t st2) := by
  have hty : (DBValue.StrCI "").get_type = DBType.StrCI nullChar nullChar := rfl
  have hsub : (DBValue.StrCI "").get_type.is_subtype (DBType.StrCI lo hi) = true := by
    rw [hty]
    simp [DBType.is_subtype]
  have hmatch : Schema.match_record ⟨[⟨cname, .StrCI lo hi⟩]⟩ [.StrCI ""] = true := by
    simp [Schema.match_record, Schema.column_types, hsub]
  refine ⟨⟨hty, hsub⟩, hmatch, ?_, ?_⟩
  · intro t st draws k hschema hgen
    unfold Table.add_record
    rw [hschema, hmatch]
    simp only [Bool.not_true, not_true_eq_false, if_false, hgen]
    exact ⟨_, _, rfl⟩
  · intro t st ident hschema hfind
    unfold Table.upd_record
    rw [hschema, hmatch]
    simp only [Option.isNone_iff_eq_none, Bool.not_true]
    rw [Option.isSome_iff_exists] at hfind
    obtain ⟨v, hv⟩ := hfind
    rw [hv]
    simp

lemma head_append_ne (x y : String) (c d : Char) (hc : x.data.head? = some c)
    (hd : y.data.head? = some d) (h : c ≠ d) : x ≠ y := by
  intro he
  rw [he, hd] at hc
  exact h (Option.some.inj hc).symm

lemma data_cons_append (c : Char) (x : String) :
    ((⟨[c]⟩ : String) ++ x).data = c :: x.data := by
  rw [String.data_append]
  rfl

lemma blobKey_ne_slash (id : Nat) (n : String) : blobKey id ≠ "/" ++ n := by
  apply head_append_ne _ _ '$' '/'
  · rw [show blobKey id = (⟨['$']⟩ : String) ++ u64ToString id from rfl,
      data_cons_append '$' (u64ToString id)]
    rfl
  · rw [data_cons_append '/' n]
    rfl
  · decide

lemma blobKey_ne_hash (id : Nat) (n : String) : blobKey id ≠ "#" ++ n := by
  apply head_append_ne _ _ '$' '#'
  · rw [show blobKey id = (⟨['$']⟩ : String) ++ u64ToString id from rfl,
      data_cons_append '$' (u64ToString id)]
    rfl
  · rw [data_cons_append '#' n]
    rfl
  · decide

lemma blobKey_ne_root (id : Nat) : blobKey id ≠ "/" := by
  apply head_append_ne _ _ '$' '/'
  · rw [show blobKey id = (⟨['$']⟩ : String) ++ u64ToString id from rfl,
      data_cons_append '$' (u64ToString id)]
    rfl
  · rfl
  · decide

lemma hash_ne_root (n : String) : "#" ++ n ≠ "/" := by
  apply head_append_ne _ _ '#' '/'
  · rw [show ("#" ++ n : String) = (⟨['#']⟩ : String) ++ n from rfl, data_cons_append]
    rfl
  · rfl
  · decide

lemma hash_ne_slash (n m : String) : "#" ++ n ≠ "/" ++ m := by
  apply head_append_ne _ _ '#' '/'
  · rw [show ("#" ++ n : String) = (⟨['#']⟩ : String) ++ n from rfl, data_cons_append]
    rfl
  · rw [show ("/" ++ m : String) = (⟨['/']⟩ : String) ++ m from rfl, data_cons_append]
    rfl
  · decide

/-- C10 -/

lemma ofDigits_natDigitsGo : ∀ fuel n, n < fuel → ofDigits (natDigitsGo n fuel) = n := by
  intro fuel
  induction fuel with
  | zero => intro n h; omega
  | succ fuel ih =>
    intro n h
    unfold natDigitsGo
    by_cases h10 : n < 10
    · simp [h10, ofDigits]
    · rw [if_neg h10]
      simp only [ofDigits]
      rw [ih (n / 10)
        (by
          have := Nat.div_lt_self (show 0 < n by omega) (show 1 < 10 by omega)
          omega)]
      omega

lemma natDigits_lt_ten : ∀ fuel n, ∀ d ∈ natDigitsGo n fuel, d < 10 := by
  intro fuel
  induction fuel with
  | zero => intro n d hd; simp [natDigitsGo] at hd
  | succ fuel ih =>
    intro n d hd
    unfold natDigitsGo at hd
    by_cases h10 : n < 10
    · simp [h10] at hd; omega
    · rw [if_neg h10] at hd
      rcases List.mem_cons.1 hd with h | h
      · omega
      · exact ih _ _ h

lemma digitToChar_injOn : ∀ a b : Fin 10, digitToChar a = digitToChar b → a = b := by
  decide

lemma map_digitToChar_inj : ∀ la lb : List Nat, (∀ d ∈ la, d < 10) → (∀ d ∈ lb, d < 10) →
    la.map digitToChar = lb.map digitToChar → la = lb := by
  intro la
  induction la with
  | nil => intro lb _ _ h; cases lb <;> simp_all
  | cons a la ih =>
    intro lb ha hb h
    cases lb with
    | nil => simp at h
    | cons b lb =>
      simp only [List.map_cons, List.cons.injEq] at h
      have hab : a = b := by
        have := digitToChar_injOn ⟨a, ha a (by simp)⟩ ⟨b, hb b (by simp)⟩ h.1
        simpa using congrArg Fin.val this
      subst hab
      rw [ih lb (fun d hd => ha d (by simp [hd])) (fun d hd => hb d (by simp [hd])) h.2]

lemma u64ToString_inj (m n : Nat) (h : u64ToString m = u64ToString n) : m = n := by
  have hd := congrArg String.data h
  simp only [u64ToString] at hd
  have hrev : (natDigits m).map digitToChar = (natDigits n).map digitToChar := by
    have := congrArg List.reverse hd
    simpa using this
  have hdig : natDigits m = natDigits n :=
    map_digitToChar_inj _ _ (natDigits_lt_ten _ m) (natDigits_lt_ten _ n) hrev
  have h1 := ofDigits_natDigitsGo (m + 1) m (by omega)
  have h2 := ofDigits_natDigitsGo (n + 1) n (by omega)
  rw [show natDigits m = natDigitsGo m (m + 1) from rfl] at hdig
  rw [show natDigits n = natDigitsGo n (n + 1) from rfl] at hdig
  rw [← h1, ← h2, hdig]

lemma blobKey_inj (m n : Nat) (h : blobKey m = blobKey n) : m = n := by
  apply u64ToString_inj
  have hd := congrArg String.data h
  rw [show blobKey m = (⟨['$']⟩ : String) ++ u64ToString m from rfl,
    show blobKey n = (⟨['$']⟩ : String) ++ u64ToString n from rfl,
    data_cons_append, data_cons_append] at hd
  exact String.ext (by injection hd)

-- store basics

lemma Store.set_self (st : Store) (k : String) (v : Val) : (st.set k v) k = some v := by
  simp [Store.set]

lemma Store.set_ne (st : Store) (k : String) (v : Val) (q : String) (h : q ≠ k) :
    (st.set k v) q = st q := by
  simp [Store.set, h]

lemma genIdent_fresh : ∀ (draws : List Nat) (st : Store) (k : Nat),
    genIdent st draws = some k → st (blobKey k) = none := by
  intro draws
  induction draws with
  | nil => intro st k h; simp [genIdent] at h
  | cons d rest ih =>
    intro st k h
    unfold genIdent at h
    by_cases hk : st.hasKey (blobKey d)
    · rw [if_pos hk] at h
      exact ih st k h
    · rw [if_neg hk] at h
      injection h with h
      subst h
      cases hsv : st (blobKey d)
      · rfl
      · exact absurd (by simp [Store.hasKey, hsv]) hk

lemma update_preserves_blob (t : Table) (st : Store) (id : Nat) :
    (t.update st) (blobKey id) = st (blobKey id) := by
  unfold Table.update
  rw [Store.set_ne _ _ _ _ (blobKey_ne_hash id t.name),
    Store.set_ne _ _ _ _ (blobKey_ne_slash id t.name)]

lemma getRecordVal_congr (st st' : Store) (q : String) (h : st' q = st q) :
    st'.getRecordVal q = st.getRecordVal q := by
  unfold Store.getRecordVal
  rw [h]

-- reading a list of blobs

lemma coerce_strci_delegate (s : String) (lo hi : Char) :
    (DBValue.Str s).coerce (.StrCI lo hi) = (DBValue.StrCI s).coerce (.StrCI lo hi) := by
  unfold DBValue.coerce strCIcoerce
  have hsub : (DBValue.Str s).get_type.is_subtype (.StrCI lo hi) = false := by
    simp [DBValue.get_type, DBType.is_subtype, DBType.tag]
  rw [hsub]
  cases hc : (DBValue.StrCI s).get_type.is_subtype (.StrCI lo hi) <;> simp [hc, strCIcoerce]

/-- C1: the table-removal claim fails on the code.  In a fresh database,
create table `t` (one `Integer` column), insert one record (identifier 5),
then `remove_table "t"`: the catalog entry and the index key `/t` are gone
and `get_table` fails `TableNotFound`, but the schema key `#t` and the
record blob `$5` both survive in the substrate, where the claim says they
are deleted. -/
theorem remove_table_leaves_schema_and_blobs :
    (DB.get_table "t" c1St1).toOption = some c1Tab
    ∧ (c1Tab.add_record [.Integer 7] [5] c1St1).resOf =
        some (⟨"t", ⟨[⟨"c", DBType.Integer⟩]⟩, [5]⟩, 5)
    ∧ (DB.remove_table "t" c1St2).isOk = true
    ∧ c1St3.hasKey "/t" = false
    ∧ exceptErr (DB.get_table "t" c1St3) = some .TableNotFound
    ∧ c1St3.hasKey "#t" = true
    ∧ c1St3 "#t" = some (.schema ⟨[⟨"c", DBType.Integer⟩]⟩)
    ∧ c1St3.hasKey "$5" = true
    ∧ c1St3 "$5" = some (.record [.Integer 7]) := by
  refine ⟨?_, ?_, ?_, ?_, ?_, ?_, ?_, ?_, ?_⟩ <;> decide

/-- C3: the sort claim fails on the code.  `sort_records` does fail
`InvalidColumn` on an unknown column name, but on a table with a `Real`
column holding NaN beside an ordinary value it panics
(`partial_cmp(..).unwrap()` on `None`) instead of treating NaN as greater
than every value or surfacing an error — and such a NaN is producible by
the system itself, since retyping a `Str` column holding `"NaN"` to `Real`
parses it to NaN. -/
theorem sort_records_nan_panics :
    (DB.get_table "t" c3Store).toOption = some c3Tab
    ∧ (c3Tab.sort_records "r" c3Store).isPanic = true
    ∧ (c3Tab.sort_records "nope" c3Store).errOf = some .InvalidColumn
    ∧ (DBValue.Str "NaN").coerce .Real = some (.Real .nan) := by
  refine ⟨?_, ?_, ?_, ?_⟩ <;> decide

/-- C7: the move-column claim fails on the code.  On a table with one
column `a`, `move_column("a", 1)` — `new_position` equal to the column
count — passes the `idx > len` bound check and then panics in
`Vec::insert` (the vector was shortened by the preceding `remove`), while
positions `2` and an unknown name do fail `InvalidPosition` /
`InvalidColumn` as claimed. -/
theorem move_column_at_count_panics :
    (c7Tab.move_column "a" 1 dbInit).isPanic = true
    ∧ (c7Tab.move_column "a" 2 dbInit).errOf = some .InvalidPosition
    ∧ (c7Tab.move_column "zz" 0 dbInit).errOf = some .InvalidColumn := by
  refine ⟨?_, ?_, ?_⟩ <;> decide

-- key/injectivity infrastructure

lemma read_congr : ∀ (l : List Nat) (st st' : Store),
    (∀ id ∈ l, st' (blobKey id) = st (blobKey id)) →
    (l.mapM fun id => (st'.getRecordVal (blobKey id)).map fun v => Record.mk id v)
      = l.mapM fun id => (st.getRecordVal (blobKey id)).map fun v => Record.mk id v := by
  intro l
  induction l with
  | nil => intro st st' _; rfl
  | cons a l ih =>
    intro st st' h
    rw [List.mapM_cons, List.mapM_cons,
      getRecordVal_congr st st' (blobKey a) (h a (by simp)),
      ih st st' fun id hid => h id (by simp [hid])]

lemma read_mem_record : ∀ (l : List Nat) (st : Store) (recs : List Record),
    (l.mapM fun id => (st.getRecordVal (blobKey id)).map fun v => Record.mk id v)
      = some recs →
    ∀ id ∈ l, ∃ vs, st (blobKey id) = some (.record vs) := by
  intro l
  induction l with
  | nil => intro st recs _ id hid; simp at hid
  | cons a l ih =>
    intro st recs h id hid
    rw [List.mapM_cons] at h
    cases hv : st.getRecordVal (blobKey a) with
    | none => rw [hv] at h; simp at h
    | some vs =>
      rw [hv] at h
      simp only [Option.map_some, Option.bind_eq_bind, Option.some_bind] at h
      cases hrest : l.mapM fun id => (st.getRecordVal (blobKey id)).map fun v => Record.mk id v with
      | none => rw [hrest] at h; simp at h
      | some rs =>
        rcases List.mem_cons.1 hid with rfl | hid2
        · refine ⟨vs, ?_⟩
          unfold Store.getRecordVal at hv
          cases hsv : st (blobKey id) <;> rw [hsv] at hv
          · exact absurd hv (by simp)
          · rename_i v
            cases v <;> simp_all
        · exact ih st rs hrest id hid2

lemma read_append_one (l : List Nat) (st : Store) (recs : List Record) (k : Nat)
    (vs : List DBValue)
    (h : (l.mapM fun id => (st.getRecordVal (blobKey id)).map fun v => Record.mk id v)
      = some recs)
    (hk : st (blobKey k) = some (.record vs)) :
    ((l ++ [k]).mapM fun id => (st.getRecordVal (blobKey id)).map fun v => Record.mk id v)
      = some (recs ++ [⟨k, vs⟩]) := by
  induction l generalizing recs with
  | nil =>
    simp only [List.mapM_nil] at h
    injection h with h
    subst h
    have hv : st.getRecordVal (blobKey k) = some vs := by
      unfold Store.getRecordVal
      rw [hk]
    rw [show ([] ++ [k] : List Nat) = [k] from rfl, List.mapM_cons, hv]
    rfl
  | cons a l ih =>
    rw [List.mapM_cons] at h
    cases hv : st.getRecordVal (blobKey a) with
    | none => rw [hv] at h; simp at h
    | some v =>
      rw [hv] at h
      simp only [Option.map_some, Option.bind_eq_bind, Option.some_bind] at h
      cases hrest : l.mapM fun id => (st.getRecordVal (blobKey id)).map fun v => Record.mk id v with
      | none =>
        rw [hrest] at h
        exact absurd h (by simp)
      | some rs =>
        rw [hrest] at h
        simp only [Option.bind_eq_bind, Option.some_bind, Option.pure_def] at h
        injection h with h
        subst h
        rw [List.cons_append, List.mapM_cons, hv]
        simp only [Option.map_some, Option.bind_eq_bind, Option.some_bind]
        rw [ih rs hrest]
        rfl

/-- C6: round-trip.  For every table whose records are readable and every
fresh identifier the generator settles on, `add_record` on a value
sequence that validates against the schema returns that identifier,
appends it to the index, persists the blob, and reading back through
`get_records` yields the old records plus the new one with an equal value
sequence; when validation fails it returns `TypeMismatch` and leaves the
store unchanged. -/
theorem add_record_roundtrip (t : Table) (st : Store) (value : List DBValue)
    (draws : List Nat) (k : Nat) (recs : List Record)
    (hfresh : genIdent st draws = some k)
    (hrecs : t.get_records st = some recs) :
    (t.schema.match_record value = false →
      t.add_record value draws st = .err .TypeMismatch st)
    ∧ (t.schema.match_record value = true →
      ∃ st2, t.add_record value draws st =
          .ok (⟨t.name, t.schema, t.records ++ [k]⟩, k) st2
        ∧ st2 (blobKey k) = some (.record value)
        ∧ (⟨t.name, t.schema, t.records ++ [k]⟩ : Table).get_records st2 =
            some (recs ++ [⟨k, value⟩])) := by
  constructor
  · intro hmatch
    unfold Table.add_record
    rw [hmatch]
    simp
  · intro hmatch
    unfold Table.add_record
    rw [hmatch, hfresh]
    simp only [Bool.not_true, not_true_eq_false, if_false, ite_false]
    set st1 := st.set (blobKey k) (.record value) with hst1
    set t2 : Table := ⟨t.name, t.schema, t.records ++ [k]⟩ with ht2
    refine ⟨t2.update st1, rfl, ?_, ?_⟩
    · rw [update_preserves_blob, hst1, Store.set_self]
    · -- blobs of the old records exist in st and are distinct from blobKey k
      have hmem := read_mem_record t.records st recs (by simpa [Table.get_records] using hrecs)
      have hne : ∀ id ∈ t.records, blobKey id ≠ blobKey k := by
        intro id hid he
        obtain ⟨vs, hvs⟩ := hmem id hid
        rw [he, genIdent_fresh draws st k hfresh] at hvs
        cases hvs
      have hcong1 : ∀ id ∈ t.records, st1 (blobKey id) = st (blobKey id) := by
        intro id hid
        rw [hst1, Store.set_ne _ _ _ _ (hne id hid)]
      have hread1 :
          (t.records.mapM fun id =>
            (st1.getRecordVal (blobKey id)).map fun v => Record.mk id v) = some recs := by
        rw [read_congr t.records st st1 hcong1]
        simpa [Table.get_records] using hrecs
      have hk1 : st1 (blobKey k) = some (.record value) := by
        rw [hst1, Store.set_self]
      have happ := read_append_one t.records st1 recs k value hread1 hk1
      show ((t.records ++ [k]).mapM fun id =>
        ((t2.update st1).getRecordVal (blobKey id)).map fun v => Record.mk id v) =
          some (recs ++ [⟨k, value⟩])
      rw [read_congr (t.records ++ [k]) st1 (t2.update st1)
        fun id _ => update_preserves_blob t2 st1 id]
      exact happ

-- C2 infrastructure

theorem add_record_roundtrip_witness :
    ∃ st2, Table.add_record ⟨"t", ⟨[⟨"c", DBType.Integer⟩]⟩, []⟩ [DBValue.Integer 7]
        [5] c1St1 = .ok (⟨"t", ⟨[⟨"c", DBType.Integer⟩]⟩, [] ++ [5]⟩, 5) st2
      ∧ st2 (blobKey 5) = some (.record [DBValue.Integer 7])
      ∧ (⟨"t", ⟨[⟨"c", DBType.Integer⟩]⟩, [] ++ [5]⟩ : Table).get_records st2 =
          some ([] ++ [⟨5, [DBValue.Integer 7]⟩]) :=
  (add_record_roundtrip ⟨"t", ⟨[⟨"c", DBType.Integer⟩]⟩, []⟩ c1St1 [DBValue.Integer 7]
    [5] 5 [] (by decide) (by decide)).2 (by decide)

lemma vecRemoveOpt_eq : ∀ (l : List α) (i : Nat), i < l.length →
    vecRemoveOpt l i = (l.get? i).map fun v => (v, l.eraseIdx i) := by
  intro l
  induction l with
  | nil => intro i h; simp at h
  | cons x xs ih =>
    intro i h
    cases i with
    | zero => rfl
    | succ n =>
      simp only [vecRemoveOpt, List.get?_cons_succ, List.eraseIdx_cons_succ]
      rw [ih n (by simpa using h)]
      cases xs.get? n <;> simp

lemma vecInsertOpt_eq : ∀ (l : List α) (i : Nat) (v : α), i ≤ l.length →
    vecInsertOpt l i v = some (l.insertIdx i v) := by
  intro l
  induction l with
  | nil =>
    intro i v h
    have hi : i = 0 := by simpa using h
    subst hi
    rfl
  | cons x xs ih =>
    intro i v h
    cases i with
    | zero => rfl
    | succ n =>
      simp only [vecInsertOpt, List.insertIdx]
      rw [ih n v (by simpa using h)]
      rfl

lemma findIdx?_lt {l : List α} {p : α → Bool} {i : Nat} (h : l.findIdx? p = some i) :
    i < l.length :=
  (List.findIdx?_eq_some_iff_findIdx_eq.mp h).1

lemma rewriteRecord_of_lt (idx : Nat) (ty : DBType) (r : Record)
    (hlen : idx < r.value.length) :
    rewriteRecord idx ty r =
      match (r.value.get? idx).bind fun v => v.coerce ty with
      | none => .mismatch
      | some w => .ok ⟨r.ident, (r.value.eraseIdx idx).insertIdx idx w⟩ := by
  unfold rewriteRecord
  rw [vecRemoveOpt_eq r.value idx hlen]
  cases hv : r.value.get? idx with
  | none =>
    rw [List.get?_eq_none] at hv
    omega
  | some v =>
    simp only [Option.map_some', Option.bind_eq_bind, Option.some_bind]
    cases hc : v.coerce ty with
    | none => rfl
    | some w =>
      have hle : idx ≤ (r.value.eraseIdx idx).length := by
        rw [List.length_eraseIdx_of_lt hlen]
        omega
      simp [vecInsertOpt_eq _ idx w hle]

lemma rewriteAll_mismatch (idx : Nat) (ty : DBType) :
    ∀ recs : List Record, (∀ r ∈ recs, idx < r.value.length) →
    (∃ r ∈ recs, ((r.value.get? idx).bind fun v => v.coerce ty) = none) →
    rewriteAll idx ty recs = .mismatch := by
  intro recs
  induction recs with
  | nil => intro _ h; simp at h
  | cons r rs ih =>
    intro hlen hex
    unfold rewriteAll
    rw [rewriteRecord_of_lt idx ty r (hlen r (by simp))]
    cases hc : (r.value.get? idx).bind fun v => v.coerce ty with
    | none => rfl
    | some w =>
      simp only []
      have hex2 : ∃ r2 ∈ rs, ((r2.value.get? idx).bind fun v => v.coerce ty) = none := by
        rcases hex with ⟨r2, hr2, hnone⟩
        rcases List.mem_cons.1 hr2 with rfl | h2
        · rw [hnone] at hc; cases hc
        · exact ⟨r2, h2, hnone⟩
      rw [ih (fun r2 h2 => hlen r2 (by simp [h2])) hex2]

lemma rewriteAll_ok (idx : Nat) (ty : DBType) :
    ∀ recs : List Record, (∀ r ∈ recs, idx < r.value.length) →
    (∀ r ∈ recs, (((r.value.get? idx).bind fun v => v.coerce ty)).isSome = true) →
    ∃ newrs, rewriteAll idx ty recs = .ok newrs
      ∧ newrs.map Record.ident = recs.map Record.ident
      ∧ ∀ r ∈ recs, ∀ w, ((r.value.get? idx).bind fun v => v.coerce ty) = some w →
          (⟨r.ident, (r.value.eraseIdx idx).insertIdx idx w⟩ : Record) ∈ newrs := by
  intro recs
  induction recs with
  | nil => exact fun _ _ => ⟨[], rfl, rfl, by simp⟩
  | cons r rs ih =>
    intro hlen hall
    obtain ⟨newrs, hrw, hids, hmem⟩ :=
      ih (fun r2 h2 => hlen r2 (by simp [h2])) (fun r2 h2 => hall r2 (by simp [h2]))
    have hr := hall r (by simp)
    rw [Option.isSome_iff_exists] at hr
    obtain ⟨w, hw⟩ := hr
    refine ⟨⟨r.ident, (r.value.eraseIdx idx).insertIdx idx w⟩ :: newrs, ?_, ?_, ?_⟩
    · unfold rewriteAll
      rw [rewriteRecord_of_lt idx ty r (hlen r (by simp)), hw, hrw]
    · simp [hids]
    · intro r2 h2 w2 hw2
      rcases List.mem_cons.1 h2 with rfl | h3
      · rw [hw] at hw2
        injection hw2 with hw2
        subst hw2
        simp
      · simp [hmem r2 h3 w2 hw2]

lemma foldl_write_other : ∀ (rs : List Record) (st : Store) (q : String),
    (∀ r ∈ rs, q ≠ blobKey r.ident) →
    (rs.foldl (fun s r => s.set (blobKey r.ident) (.record r.value)) st) q = st q := by
  intro rs
  induction rs with
  | nil => intro st q _; rfl
  | cons r rs ih =>
    intro st q hq
    rw [List.foldl_cons, ih _ q fun r2 h2 => hq r2 (by simp [h2]),
      Store.set_ne _ _ _ _ (hq r (by simp))]

lemma foldl_write_lookup : ∀ (rs : List Record) (st : Store),
    (rs.map Record.ident).Nodup →
    ∀ r ∈ rs,
    (rs.foldl (fun s r => s.set (blobKey r.ident) (.record r.value)) st) (blobKey r.ident)
      = some (.record r.value) := by
  intro rs
  induction rs with
  | nil => intro st _ r hr; simp at hr
  | cons x rs ih =>
    intro st hnd r hr
    simp only [List.map_cons, List.nodup_cons] at hnd
    rcases List.mem_cons.1 hr with rfl | h2
    · rw [List.foldl_cons,
        foldl_write_other rs _ (blobKey r.ident) fun r2 h2 he => hnd.1 (by
          rw [List.mem_map]
          exact ⟨r2, h2, (blobKey_inj _ _ he).symm⟩),
        Store.set_self]
    · rw [List.foldl_cons]
      exact ih _ hnd.2 r h2

/-- C2: `upd_column` is all-or-nothing.  With the old column resolved at
`idx`, no name collision, and every record blob readable and long enough:
if coercion to the new column's type fails for any record, the operation
returns `TypeMismatch` with the store exactly as it was (no blob, no
schema key modified — all candidate rewrites are computed before any
write); if every record coerces, it succeeds, persists every rewritten
blob and swaps the schema column in place. -/
theorem upd_column_all_or_nothing (t : Table) (old : String) (newc : Column)
    (st : Store) (idx : Nat) (recs : List Record)
    (hidx : t.schema.columns.findIdx? (fun c => c.name == old) = some idx)
    (hname : newc.name = old ∨
      t.schema.columns.findIdx? (fun c => c.name == newc.name) = none)
    (hrecs : t.get_records st = some recs)
    (hlen : ∀ r ∈ recs, idx < r.value.length) :
    ((∃ r ∈ recs, ((r.value.get? idx).bind fun v => v.coerce newc.ctype) = none) →
      t.upd_column old newc st = .err .TypeMismatch st)
    ∧ ((∀ r ∈ recs,
          (((r.value.get? idx).bind fun v => v.coerce newc.ctype)).isSome = true) →
        (recs.map Record.ident).Nodup →
        ∃ newrs st2,
          rewriteAll idx newc.ctype recs = .ok newrs
          ∧ t.upd_column old newc st =
              .ok ⟨t.name, ⟨(t.schema.columns.eraseIdx idx).insertIdx idx newc⟩,
                t.records⟩ st2
          ∧ st2 ("#" ++ t.name) =
              some (.schema ⟨(t.schema.columns.eraseIdx idx).insertIdx idx newc⟩)
          ∧ (∀ r ∈ newrs, st2 (blobKey r.ident) = some (.record r.value))
          ∧ (∀ r ∈ recs, ∀ w,
              ((r.value.get? idx).bind fun v => v.coerce newc.ctype) = some w →
              (⟨r.ident, (r.value.eraseIdx idx).insertIdx idx w⟩ : Record) ∈ newrs)) := by
  have hguard : ((t.schema.columns.findIdx? fun c => c.name == newc.name).isSome
      && newc.name != old) = false := by
    rcases hname with h | h
    · simp [h]
    · simp [h]
  constructor
  · intro hex
    unfold Table.upd_column
    rw [hidx]
    simp [hguard, hrecs, rewriteAll_mismatch idx newc.ctype recs hlen hex]
  · intro hall hnd
    obtain ⟨newrs, hrw, hids, hmem⟩ := rewriteAll_ok idx newc.ctype recs hlen hall
    have hidxlt : idx < t.schema.columns.length := findIdx?_lt hidx
    have hrem := vecRemoveOpt_eq t.schema.columns idx hidxlt
    have hins : vecInsertOpt (t.schema.columns.eraseIdx idx) idx newc =
        some ((t.schema.columns.eraseIdx idx).insertIdx idx newc) := by
      apply vecInsertOpt_eq
      rw [List.length_eraseIdx_of_lt hidxlt]
      omega
    have hc : ∃ c, t.schema.columns.get? idx = some c := by
      cases hcv : t.schema.columns.get? idx
      · rw [List.get?_eq_none] at hcv
        omega
      · exact ⟨_, rfl⟩
    obtain ⟨c, hcv⟩ := hc
    have hrem2 : vecRemoveOpt t.schema.columns idx =
        some (c, t.schema.columns.eraseIdx idx) := by
      rw [hrem, hcv]
      rfl
    set st1 := newrs.foldl (fun s r => s.set (blobKey r.ident) (.record r.value)) st
      with hst1
    set t2 : Table :=
      ⟨t.name, ⟨(t.schema.columns.eraseIdx idx).insertIdx idx newc⟩, t.records⟩ with ht2
    refine ⟨newrs, t2.update st1, hrw, ?_, ?_, ?_, hmem⟩
    · unfold Table.upd_column
      rw [hidx]
      simp only [hguard, Bool.false_eq_true, if_false, ite_false, hrecs, hrw, hrem2, hins]
    · unfold Table.update
      rw [Store.set_self]
    · intro r hrn
      unfold Table.update
      rw [Store.set_ne _ _ _ _ (blobKey_ne_hash r.ident t.name),
        Store.set_ne _ _ _ _ (blobKey_ne_slash r.ident t.name)]
      have hnd2 : (newrs.map Record.ident).Nodup := by
        rw [hids]
        exact hnd
      exact foldl_write_lookup newrs st hnd2 r hrn

theorem upd_column_all_or_nothing_witness :
    Table.upd_column ⟨"t", ⟨[⟨"c", DBType.Str⟩]⟩, [1, 2]⟩ "c" ⟨"c", DBType.Integer⟩
      c2Store = .err .TypeMismatch c2Store :=
  (upd_column_all_or_nothing ⟨"t", ⟨[⟨"c", DBType.Str⟩]⟩, [1, 2]⟩ "c"
    ⟨"c", DBType.Integer⟩ c2Store 0 [⟨1, [.Str "3"]⟩, ⟨2, [.Str "x"]⟩]
    (by decide) (Or.inl rfl) (by decide) (by decide)).1 (by decide)

/-- C10: `add_table` performs no validation of the supplied schema: for
any fresh name it succeeds with any schema whatsoever (zero columns or
duplicate column names included), persisting it as given; and the
name-based column operations `del_column`, `move_column` and `upd_column`
then act on the first column whose name matches. -/
theorem add_table_unvalidated (name : String) (schema : Schema) (st : Store)
    (tv : List String) (hfresh : st ("/" ++ name) = none)
    (hcat : st "/" = some (.tables tv)) :
    (∃ st2, DB.add_table name schema st = .ok () st2
      ∧ st2 ("#" ++ name) = some (.schema schema)
      ∧ st2 ("/" ++ name) = some (.index [])
      ∧ st2 "/" = some (.tables (tv ++ [name])))
    ∧ (∀ (nm cn : String) (ty1 ty2 ty3 : DBType) (st0 : Store),
        (∃ st2, Table.del_column ⟨nm, ⟨[⟨cn, ty1⟩, ⟨cn, ty2⟩]⟩, []⟩ cn st0 =
          .ok ⟨nm, ⟨[⟨cn, ty2⟩]⟩, []⟩ st2)
        ∧ (∃ st2, Table.move_column ⟨nm, ⟨[⟨cn, ty1⟩, ⟨cn, ty2⟩]⟩, []⟩ cn 1 st0 =
          .ok ⟨nm, ⟨[⟨cn, ty2⟩, ⟨cn, ty1⟩]⟩, []⟩ st2)
        ∧ (∃ st2, Table.upd_column ⟨nm, ⟨[⟨cn, ty1⟩, ⟨cn, ty2⟩]⟩, []⟩ cn ⟨cn, ty3⟩ st0 =
          .ok ⟨nm, ⟨[⟨cn, ty3⟩, ⟨cn, ty2⟩]⟩, []⟩ st2)) := by
  have hslash_ne_root : ("/" ++ name : String) ≠ "/" := by
    intro he
    rw [he, hcat] at hfresh
    cases hfresh
  constructor
  · have hhk : st.hasKey ("/" ++ name) = false := by
      simp [Store.hasKey, hfresh]
    unfold DB.add_table
    simp only [hhk, Bool.false_eq_true, if_false, ite_false]
    unfold Table.update
    have hcat1 : ((st.set ("/" ++ name) (.index [])).set ("#" ++ name)
        (.schema schema)) "/" = some (.tables tv) := by
      rw [Store.set_ne _ _ _ _ (Ne.symm (hash_ne_root name)),
        Store.set_ne _ _ _ _ (Ne.symm hslash_ne_root), hcat]
    unfold DB.get_tables Store.getTablesVal
    rw [hcat1]
    refine ⟨_, rfl, ?_, ?_, ?_⟩
    · rw [Store.set_ne _ _ _ _ (hash_ne_root name), Store.set_self]
    · rw [Store.set_ne _ _ _ _ hslash_ne_root,
        Store.set_ne _ _ _ _ (fun he => hash_ne_slash name name he.symm),
        Store.set_self]
    · rw [Store.set_self]
  · intro nm cn ty1 ty2 ty3 st0
    have hfind : List.findIdx? (fun c => c.name == cn) [(⟨cn, ty1⟩ : Column), ⟨cn, ty2⟩]
        = some 0 := by
      rw [List.findIdx?_cons]
      simp
    refine ⟨⟨(⟨nm, ⟨[⟨cn, ty2⟩]⟩, []⟩ : Table).update st0, ?_⟩,
      ⟨(⟨nm, ⟨[⟨cn, ty2⟩, ⟨cn, ty1⟩]⟩, []⟩ : Table).update st0, ?_⟩,
      ⟨(⟨nm, ⟨[⟨cn, ty3⟩, ⟨cn, ty2⟩]⟩, []⟩ : Table).update st0, ?_⟩⟩
    · unfold Table.del_column
      rw [show (⟨nm, ⟨[⟨cn, ty1⟩, ⟨cn, ty2⟩]⟩, []⟩ : Table).schema.columns
          = [(⟨cn, ty1⟩ : Column), ⟨cn, ty2⟩] from rfl, hfind]
      rfl
    · unfold Table.move_column
      rw [show (⟨nm, ⟨[⟨cn, ty1⟩, ⟨cn, ty2⟩]⟩, []⟩ : Table).schema.columns
          = [(⟨cn, ty1⟩ : Column), ⟨cn, ty2⟩] from rfl, hfind]
      rfl
    · have hfind3 : List.findIdx? (fun c => c.name == (⟨cn, ty3⟩ : Column).name)
          [(⟨cn, ty1⟩ : Column), ⟨cn, ty2⟩] = some 0 := hfind
      unfold Table.upd_column
      rw [show (⟨nm, ⟨[⟨cn, ty1⟩, ⟨cn, ty2⟩]⟩, []⟩ : Table).schema.columns
          = [(⟨cn, ty1⟩ : Column), ⟨cn, ty2⟩] from rfl, hfind]
      simp only [hfind3, Option.isSome_some, Bool.true_and, bne_self_eq_false,
        Bool.false_eq_true, if_false, ite_false]
      rfl

-- C8: reachable database states
/-- One transport-level table operation as `routes.rs` drives it: resolve
the handle with `get_table` (a failure leaves the store untouched), apply
the operation, keep whatever it wrote. -/

theorem add_table_unvalidated_witness :
    ∃ st2, DB.add_table "t" ⟨[]⟩ dbInit = .ok () st2
      ∧ st2 ("#" ++ "t") = some (.schema ⟨[]⟩)
      ∧ st2 ("/" ++ "t") = some (.index [])
      ∧ st2 "/" = some (.tables ([] ++ ["t"])) :=
  (add_table_unvalidated "t" ⟨[]⟩ dbInit [] (by decide) (by decide)).1

lemma DBInv_init : DBInv dbInit := by
  have hidx : ∀ k ids, dbInit k = some (.index ids) → False := by
    intro k ids h
    unfold dbInit at h
    by_cases hk : k = "/"
    · rw [if_pos hk] at h
      cases h
    · rw [if_neg hk] at h
      cases h
  exact ⟨fun k ids h => absurd h fun h => hidx k ids h,
    fun k ids h => absurd h fun h => hidx k ids h,
    fun k1 k2 ids1 ids2 _ h1 => absurd h1 fun h => hidx k1 ids1 h⟩

lemma DBInv.set_record (h : DBInv st) (k : String) (vs : List DBValue) :
    DBInv (st.set k (.record vs)) := by
  have hidx : ∀ k2 ids, (st.set k (.record vs)) k2 = some (.index ids) →
      st k2 = some (.index ids) := by
    intro k2 ids h2
    by_cases he : k2 = k
    · rw [he, Store.set_self] at h2
      cases h2
    · rwa [Store.set_ne _ _ _ _ he] at h2
  refine ⟨fun k2 ids h2 => h.nodup k2 ids (hidx k2 ids h2),
    fun k2 ids h2 id hid => ?_,
    fun k1 k2 ids1 ids2 hne h1 h2 => h.disj k1 k2 ids1 ids2 hne (hidx _ _ h1) (hidx _ _ h2)⟩
  obtain ⟨ws, hws⟩ := h.blobs k2 ids (hidx k2 ids h2) id hid
  by_cases he : blobKey id = k
  · exact ⟨vs, by rw [he, Store.set_self]⟩
  · exact ⟨ws, by rw [Store.set_ne _ _ _ _ he, hws]⟩

lemma DBInv.set_nonidx (h : DBInv st) (k : String) (v : Val)
    (hv : ∀ ids, v ≠ .index ids) (hk : ∀ id : Nat, k ≠ blobKey id) :
    DBInv (st.set k v) := by
  have hidx : ∀ k2 ids, (st.set k v) k2 = some (.index ids) →
      st k2 = some (.index ids) := by
    intro k2 ids h2
    by_cases he : k2 = k
    · rw [he, Store.set_self] at h2
      exact absurd (Option.some.inj h2) (hv ids)
    · rwa [Store.set_ne _ _ _ _ he] at h2
  refine ⟨fun k2 ids h2 => h.nodup k2 ids (hidx k2 ids h2),
    fun k2 ids h2 id hid => ?_,
    fun k1 k2 ids1 ids2 hne h1 h2 => h.disj k1 k2 ids1 ids2 hne (hidx _ _ h1) (hidx _ _ h2)⟩
  obtain ⟨ws, hws⟩ := h.blobs k2 ids (hidx k2 ids h2) id hid
  exact ⟨ws, by rw [Store.set_ne _ _ _ _ fun he => hk id he.symm, hws]⟩

lemma DBInv.set_index (h : DBInv st) (k : String) (ids : List Nat)
    (hk : ∀ id : Nat, k ≠ blobKey id)
    (hnd : ids.Nodup)
    (hblobs : ∀ id ∈ ids, ∃ vs, st (blobKey id) = some (.record vs))
    (hdisj : ∀ k2 ids2, k2 ≠ k → st k2 = some (.index ids2) →
      ∀ id ∈ ids, id ∉ ids2) :
    DBInv (st.set k (.index ids)) := by
  have hidx : ∀ k2 ids2, k2 ≠ k → (st.set k (.index ids)) k2 = some (.index ids2) →
      st k2 = some (.index ids2) := by
    intro k2 ids2 hne h2
    rwa [Store.set_ne _ _ _ _ hne] at h2
  have hat : ∀ ids2, (st.set k (.index ids)) k = some (.index ids2) → ids2 = ids := by
    intro ids2 h2
    rw [Store.set_self] at h2
    injection h2 with h2
    injection h2 with h2
    exact h2.symm
  constructor
  · intro k2 ids2 h2
    by_cases he : k2 = k
    · subst he
      rw [hat ids2 h2]
      exact hnd
    · exact h.nodup k2 ids2 (hidx k2 ids2 he h2)
  · intro k2 ids2 h2 id hid
    have hblob : ∃ vs, st (blobKey id) = some (.record vs) := by
      by_cases he : k2 = k
      · subst he
        rw [hat ids2 h2] at hid
        exact hblobs id hid
      · exact h.blobs k2 ids2 (hidx k2 ids2 he h2) id hid
    obtain ⟨ws, hws⟩ := hblob
    exact ⟨ws, by rw [Store.set_ne _ _ _ _ fun he => hk id he.symm, hws]⟩
  · intro k1 k2 ids1 ids2 hne h1 h2 id hid1 hid2
    by_cases he1 : k1 = k
    · subst he1
      rw [hat ids1 h1] at hid1
      exact hdisj k2 ids2 (Ne.symm hne) (hidx k2 ids2 (Ne.symm hne) h2) id hid1 hid2
    · by_cases he2 : k2 = k
      · subst he2
        rw [hat ids2 h2] at hid2
        exact hdisj k1 ids1 hne (hidx k1 ids1 hne h1) id hid2 hid1
      · exact h.disj k1 k2 ids1 ids2 hne (hidx k1 ids1 he1 h1) (hidx k2 ids2 he2 h2)
          id hid1 hid2

lemma DBInv.del_nonblob (h : DBInv st) (k : String) (hk : ∀ id : Nat, k ≠ blobKey id) :
    DBInv ((st.del k).1) := by
  have hlook : ∀ q v, (st.del k).1 q = some v → st q = some v := by
    intro q v hq
    have hq2 : (if q = k then none else st q) = some v := hq
    by_cases he : q = k
    · rw [if_pos he] at hq2
      cases hq2
    · rwa [if_neg he] at hq2
  refine ⟨fun k2 ids h2 => h.nodup k2 ids (hlook _ _ h2),
    fun k2 ids h2 id hid => ?_,
    fun k1 k2 ids1 ids2 hne h1 h2 => h.disj k1 k2 ids1 ids2 hne (hlook _ _ h1) (hlook _ _ h2)⟩
  obtain ⟨ws, hws⟩ := h.blobs k2 ids (hlook _ _ h2) id hid
  refine ⟨ws, ?_⟩
  show (if blobKey id = k then none else st (blobKey id)) = some (Val.record ws)
  rw [if_neg fun he => hk id he.symm]
  exact hws

lemma DBInv.del_unreferenced (h : DBInv st) (ident : Nat)
    (hun : ∀ k2 ids2, st k2 = some (.index ids2) → ident ∉ ids2) :
    DBInv ((st.del (blobKey ident)).1) := by
  have hlook : ∀ q v, (st.del (blobKey ident)).1 q = some v → st q = some v := by
    intro q v hq
    have hq2 : (if q = blobKey ident then none else st q) = some v := hq
    by_cases he : q = blobKey ident
    · rw [if_pos he] at hq2
      cases hq2
    · rwa [if_neg he] at hq2
  refine ⟨fun k2 ids h2 => h.nodup k2 ids (hlook _ _ h2),
    fun k2 ids h2 id hid => ?_,
    fun k1 k2 ids1 ids2 hne h1 h2 => h.disj k1 k2 ids1 ids2 hne (hlook _ _ h1) (hlook _ _ h2)⟩
  have h2s := hlook _ _ h2
  obtain ⟨ws, hws⟩ := h.blobs k2 ids h2s id hid
  refine ⟨ws, ?_⟩
  show (if blobKey id = blobKey ident then none else st (blobKey id)) = some (Val.record ws)
  rw [if_neg ?_]
  · exact hws
  · intro he
    have : id = ident := blobKey_inj id ident he
    subst this
    exact hun k2 ids h2s hid

/-- After a sequence of record-blob writes, every key is unchanged or
holds a record. -/
lemma writeRecords_lookup (f : Record → Option (List DBValue)) :
    ∀ (rs : List Record) (st : Store) (q : String),
    ((writeRecords f st rs).1 q = st q)
      ∨ (∃ vs, (writeRecords f st rs).1 q = some (.record vs)) := by
  intro rs
  induction rs with
  | nil => intro st q; exact Or.inl rfl
  | cons r rs ih =>
    intro st q
    unfold writeRecords
    cases f r with
    | none => exact Or.inl rfl
    | some v =>
      rcases ih (st.set (blobKey r.ident) (.record v)) q with hsame | hrec
      · by_cases he : q = blobKey r.ident
        · subst he
          rw [hsame, Store.set_self]
          exact Or.inr ⟨v, rfl⟩
        · rw [hsame, Store.set_ne _ _ _ _ he]
          exact Or.inl rfl
      · exact Or.inr hrec

lemma foldl_set_lookup :
    ∀ (rs : List Record) (st : Store) (q : String),
    ((rs.foldl (fun s r => s.set (blobKey r.ident) (.record r.value)) st) q = st q)
      ∨ (∃ vs,
          (rs.foldl (fun s r => s.set (blobKey r.ident) (.record r.value)) st) q
            = some (.record vs)) := by
  intro rs
  induction rs with
  | nil => intro st q; exact Or.inl rfl
  | cons r rs ih =>
    intro st q
    rw [List.foldl_cons]
    rcases ih (st.set (blobKey r.ident) (.record r.value)) q with hsame | hrec
    · by_cases he : q = blobKey r.ident
      · subst he
        rw [hsame, Store.set_self]
        exact Or.inr ⟨r.value, rfl⟩
      · rw [hsame, Store.set_ne _ _ _ _ he]
        exact Or.inl rfl
    · exact Or.inr hrec

/-- Invariance under any store evolution that only writes record blobs. -/
lemma DBInv.of_record_writes (h : DBInv st) (stw : Store)
    (hw : ∀ q, stw q = st q ∨ ∃ vs, stw q = some (.record vs)) : DBInv stw := by
  have hidx : ∀ k ids, stw k = some (.index ids) → st k = some (.index ids) := by
    intro k ids h2
    rcases hw k with hsame | ⟨vs, hvs⟩
    · rwa [hsame] at h2
    · rw [hvs] at h2
      cases Option.some.inj h2
  refine ⟨fun k ids h2 => h.nodup k ids (hidx k ids h2),
    fun k ids h2 id hid => ?_,
    fun k1 k2 ids1 ids2 hne h1 h2 => h.disj k1 k2 ids1 ids2 hne (hidx _ _ h1) (hidx _ _ h2)⟩
  obtain ⟨ws, hws⟩ := h.blobs k ids (hidx k ids h2) id hid
  rcases hw (blobKey id) with hsame | ⟨vs, hvs⟩
  · exact ⟨ws, by rw [hsame, hws]⟩
  · exact ⟨vs, hvs⟩

/-- `Table::update` on top of record-blob writes preserves the invariant,
as long as the table's index was loaded from the store it acts on. -/
lemma DBInv.update_after_writes (t : Table) (st stw : Store) (h : DBInv st)
    (hidx : st ("/" ++ t.name) = some (.index t.records))
    (hw : ∀ q, stw q = st q ∨ ∃ vs, stw q = some (.record vs)) :
    DBInv (t.update stw) := by
  have hw2 : DBInv stw := h.of_record_writes stw hw
  have hidxw : ∀ k ids, stw k = some (.index ids) → st k = some (.index ids) := by
    intro k ids h2
    rcases hw k with hsame | ⟨vs, hvs⟩
    · rwa [hsame] at h2
    · rw [hvs] at h2
      cases Option.some.inj h2
  unfold Table.update
  have hmid : DBInv (stw.set ("/" ++ t.name) (.index t.records)) := by
    apply hw2.set_index
    · exact fun id he => blobKey_ne_slash id t.name he.symm
    · exact h.nodup _ _ hidx
    · intro id hid
      obtain ⟨vs, hvs⟩ := h.blobs _ _ hidx id hid
      rcases hw (blobKey id) with hsame | ⟨ws, hws⟩
      · exact ⟨vs, by rw [hsame, hvs]⟩
      · exact ⟨ws, hws⟩
    · intro k2 ids2 hne h2 id hid
      exact h.disj ("/" ++ t.name) k2 t.records ids2 (Ne.symm hne) hidx
        (hidxw k2 ids2 h2) id hid
  exact hmid.set_nonidx _ _ (fun ids h => by cases h)
    (fun id he => blobKey_ne_hash id t.name he.symm)

lemma findIdx?_get {l : List Nat} {p : Nat → Bool} {i : Nat}
    (h : l.findIdx? p = some i) : ∃ a, l.get? i = some a ∧ p a = true := by
  obtain ⟨hlt, hfi⟩ := List.findIdx?_eq_some_iff_findIdx_eq.mp h
  refine ⟨l[i], ?_, ?_⟩
  · exact (List.get?_eq_get hlt).trans (by simp)
  · subst hfi
    exact List.findIdx_getElem

lemma not_mem_eraseIdx_of_nodup : ∀ (l : List Nat) (i a : Nat),
    l.Nodup → l.get? i = some a → a ∉ l.eraseIdx i := by
  intro l
  induction l with
  | nil => intro i a _ h; simp at h
  | cons x xs ih =>
    intro i a hnd hget
    cases i with
    | zero =>
      simp only [List.get?_cons_zero, Option.some.injEq] at hget
      subst hget
      simpa [List.eraseIdx_cons_zero] using (List.nodup_cons.1 hnd).1
    | succ n =>
      simp only [List.get?_cons_succ] at hget
      rw [List.eraseIdx_cons_succ]
      simp only [List.mem_cons, not_or]
      refine ⟨?_, ih n a (List.nodup_cons.1 hnd).2 hget⟩
      intro he
      subst he
      exact (List.nodup_cons.1 hnd).1 (List.get?_mem hget)

lemma get_table_inv {name : String} {st : Store} {t : Table}
    (h : DB.get_table name st = .ok t) :
    t.name = name ∧ st ("/" ++ name) = some (.index t.records) := by
  unfold DB.get_table Store.getIndexVal Store.getSchemaVal at h
  cases hi : st ("/" ++ name) with
  | none => rw [hi] at h; cases h
  | some v =>
    rw [hi] at h
    cases v with
    | index recs =>
      cases hs : st ("#" ++ name) with
      | none => rw [hs] at h; cases h
      | some w =>
        rw [hs] at h
        cases w with
        | schema s =>
          injection h with h
          subst h
          exact ⟨rfl, by simpa using hi⟩
        | tables ts => cases h
        | index ids => cases h
        | record vs => cases h
    | tables ts => cases h
    | schema s => cases h
    | record vs => cases h

lemma DBInv_add_record (t : Table) (st : Store) (value : List DBValue)
    (draws : List Nat) (h : DBInv st)
    (hidx : st ("/" ++ t.name) = some (.index t.records)) :
    DBInv (t.add_record value draws st).store := by
  unfold Table.add_record
  by_cases hm : ¬t.schema.match_record value = true
  · rw [if_pos hm]
    exact h
  · rw [if_neg hm]
    cases hgen : genIdent st draws with
    | none => exact h
    | some k =>
      have hfresh : st (blobKey k) = none := genIdent_fresh draws st k hgen
      have hknotin : k ∉ t.records := by
        intro hk
        obtain ⟨vs, hvs⟩ := h.blobs _ _ hidx k hk
        rw [hfresh] at hvs
        cases hvs
      have h1 : DBInv (st.set (blobKey k) (.record value)) := h.set_record _ _
      show DBInv (Table.update _ _)
      unfold Table.update
      have hmid : DBInv ((st.set (blobKey k) (.record value)).set ("/" ++ t.name)
          (.index (t.records ++ [k]))) := by
        apply h1.set_index
        · exact fun id he => blobKey_ne_slash id t.name he.symm
        · rw [List.nodup_append]
          refine ⟨h.nodup _ _ hidx, List.nodup_singleton k, fun a ha hb => ?_⟩
          have hak : a = k := by simpa using hb
          subst hak
          exact hknotin ha
        · intro id hid
          rcases List.mem_append.1 hid with hin | hin
          · obtain ⟨vs, hvs⟩ := h.blobs _ _ hidx id hin
            by_cases he : blobKey id = blobKey k
            · exact ⟨value, by rw [he, Store.set_self]⟩
            · exact ⟨vs, by rw [Store.set_ne _ _ _ _ he, hvs]⟩
          · have : id = k := by simpa using hin
            subst this
            exact ⟨value, by rw [Store.set_self]⟩
        · intro k2 ids2 hne h2 id hid
          have hk2 : k2 ≠ blobKey k := by
            intro he
            rw [he, Store.set_self] at h2
            cases h2
          rw [Store.set_ne _ _ _ _ hk2] at h2
          rcases List.mem_append.1 hid with hin | hin
          · exact h.disj ("/" ++ t.name) k2 t.records ids2 (Ne.symm hne) hidx h2 id hin
          · have : id = k := by simpa using hin
            subst this
            intro hik
            obtain ⟨vs, hvs⟩ := h.blobs k2 ids2 h2 id hik
            rw [hfresh] at hvs
            cases hvs
      exact hmid.set_nonidx _ _ (fun ids hcon => by cases hcon)
        (fun id he => blobKey_ne_hash id t.name he.symm)

lemma DBInv_upd_record (t : Table) (st : Store) (ident : Nat)
    (value : List DBValue) (h : DBInv st) :
    DBInv (t.upd_record ident value st).store := by
  unfold Table.upd_record
  by_cases h1 : (t.records.find? fun idx => idx == ident).isNone = true
  · rw [if_pos h1]
    exact h
  · rw [if_neg h1]
    by_cases h2 : ¬t.schema.match_record value = true
    · rw [if_pos h2]
      exact h
    · rw [if_neg h2]
      exact h.set_record _ _

lemma DBInv_del_record (t : Table) (st : Store) (ident : Nat) (h : DBInv st)
    (hidx : st ("/" ++ t.name) = some (.index t.records)) :
    DBInv (t.del_record ident st).store := by
  unfold Table.del_record
  cases hfind : t.records.findIdx? (fun x => x == ident) with
  | none => exact h
  | some i =>
    obtain ⟨a, hget, hpa⟩ := findIdx?_get hfind
    have ha : a = ident := by simpa using hpa
    subst ha
    have hnd : t.records.Nodup := h.nodup _ _ hidx
    have hsub : List.Sublist (t.records.eraseIdx i) t.records :=
      List.eraseIdx_sublist t.records i
    -- the store after Table::update with the shortened index
    have hmid : DBInv ((st.set ("/" ++ t.name) (.index (t.records.eraseIdx i))).set
        ("#" ++ t.name) (.schema t.schema)) := by
      have h1 : DBInv (st.set ("/" ++ t.name) (.index (t.records.eraseIdx i))) := by
        apply h.set_index
        · exact fun id he => blobKey_ne_slash id t.name he.symm
        · exact hnd.sublist hsub
        · exact fun id hid => h.blobs _ _ hidx id (hsub.mem hid)
        · exact fun k2 ids2 hne h2 id hid =>
            h.disj ("/" ++ t.name) k2 t.records ids2 (Ne.symm hne) hidx h2 id
              (hsub.mem hid)
      exact h1.set_nonidx _ _ (fun ids hcon => by cases hcon)
        (fun id he => blobKey_ne_hash id t.name he.symm)
    show DBInv ((Store.del (Table.update _ _) _).1)
    apply hmid.del_unreferenced
    intro k2 ids2 h2 hin
    by_cases he2 : k2 = "#" ++ t.name
    · rw [he2, Store.set_self] at h2
      cases h2
    · rw [Store.set_ne _ _ _ _ he2] at h2
      by_cases he1 : k2 = "/" ++ t.name
      · rw [he1, Store.set_self] at h2
        injection h2 with h2
        injection h2 with h2
        rw [← h2] at hin
        exact not_mem_eraseIdx_of_nodup t.records i a hnd hget hin
      · rw [Store.set_ne _ _ _ _ he1] at h2
        exact h.disj ("/" ++ t.name) k2 t.records ids2 (fun he => he1 he.symm) hidx h2
          a (List.get?_mem hget) hin

lemma DBInv_add_column (t : Table) (st : Store) (column : Column)
    (idxOpt : Option Nat) (h : DBInv st)
    (hidx : st ("/" ++ t.name) = some (.index t.records)) :
    DBInv (t.add_column column idxOpt st).store := by
  unfold Table.add_column
  dsimp only
  split
  · exact h
  · split
    · exact h
    · split
      · exact h
      · split
        · exact h
        · split
          · exact DBInv.update_after_writes _ st _ h hidx
              fun q => writeRecords_lookup _ _ _ q
          · exact h.of_record_writes _ fun q => writeRecords_lookup _ _ _ q

lemma DBInv_del_column (t : Table) (st : Store) (cname : String) (h : DBInv st)
    (hidx : st ("/" ++ t.name) = some (.index t.records)) :
    DBInv (t.del_column cname st).store := by
  unfold Table.del_column
  dsimp only
  split
  · exact h
  · split
    · exact h
    · split
      · exact h
      · split
        · exact DBInv.update_after_writes _ st _ h hidx
            fun q => writeRecords_lookup _ _ _ q
        · exact h.of_record_writes _ fun q => writeRecords_lookup _ _ _ q

lemma DBInv_move_column (t : Table) (st : Store) (cname : String) (idx : Nat)
    (h : DBInv st) (hidx : st ("/" ++ t.name) = some (.index t.records)) :
    DBInv (t.move_column cname idx st).store := by
  unfold Table.move_column
  dsimp only
  split
  · exact h
  · split
    · exact h
    · split
      · exact h
      · split
        · exact h
        · split
          · exact h
          · split
            · exact DBInv.update_after_writes _ st _ h hidx
                fun q => writeRecords_lookup _ _ _ q
            · exact h.of_record_writes _ fun q => writeRecords_lookup _ _ _ q

lemma DBInv_upd_column (t : Table) (st : Store) (old : String) (newc : Column)
    (h : DBInv st) (hidx : st ("/" ++ t.name) = some (.index t.records)) :
    DBInv (t.upd_column old newc st).store := by
  unfold Table.upd_column
  dsimp only
  split
  · exact h
  · split
    · exact h
    · split
      · exact h
      · split
        · exact h
        · exact h
        · split
          · exact h.of_record_writes _ fun q => foldl_set_lookup _ _ q
          · split
            · exact h.of_record_writes _ fun q => foldl_set_lookup _ _ q
            · exact DBInv.update_after_writes _ st _ h hidx
                fun q => foldl_set_lookup _ _ q

lemma DBInv_del_record_by_idx (t : Table) (st : Store) (idx : Nat) (h : DBInv st)
    (hidx : st ("/" ++ t.name) = some (.index t.records)) :
    DBInv (t.del_record_by_idx idx st).store := by
  unfold Table.del_record_by_idx
  split
  · exact h
  · exact DBInv_del_record t st _ h hidx

lemma DBInv_upd_record_by_idx (t : Table) (st : Store) (idx : Nat)
    (value : List DBValue) (h : DBInv st) :
    DBInv (t.upd_record_by_idx idx value st).store := by
  unfold Table.upd_record_by_idx
  split
  · exact h
  · exact DBInv_upd_record t st _ value h

lemma DBInv_add_table (name : String) (schema : Schema) (st : Store)
    (h : DBInv st) : DBInv (DB.add_table name schema st).store := by
  unfold DB.add_table
  dsimp only
  by_cases hk : st.hasKey ("/" ++ name) = true
  · rw [if_pos hk]
    exact h
  · rw [if_neg hk]
    have h1 : DBInv (Table.update ⟨name, schema, []⟩ st) := by
      unfold Table.update
      have h0 : DBInv (st.set ("/" ++ name) (.index [])) :=
        h.set_index _ [] (fun id he => blobKey_ne_slash id name he.symm)
          List.nodup_nil (by simp) (by simp)
      exact h0.set_nonidx _ _ (fun ids hc => by cases hc)
        (fun id he => blobKey_ne_hash id name he.symm)
    split
    · exact h1
    · exact h1.set_nonidx _ _ (fun ids hc => by cases hc)
        (fun id he => blobKey_ne_root id he.symm)

lemma DBInv_remove_table (name : String) (st : Store) (h : DBInv st) :
    DBInv (DB.remove_table name st).store := by
  unfold DB.remove_table
  dsimp only
  by_cases hk : ¬st.hasKey ("/" ++ name) = true
  · rw [if_pos hk]
    exact h
  · rw [if_neg hk]
    split
    · exact h
    · split
      · exact h
      · have h1 : ∀ tv2 : List String, DBInv (st.set "/" (.tables tv2)) :=
          fun tv2 => h.set_nonidx _ _ (fun ids hc => by cases hc)
            (fun id he => blobKey_ne_root id he.symm)
        split
        · exact (h1 _).del_nonblob _ fun id he => blobKey_ne_slash id name he.symm
        · exact (h1 _).del_nonblob _ fun id he => blobKey_ne_slash id name he.symm

lemma DBInv_runTableOp (name : String) (f : Table → Store → Store)
    (st : Store) (h : DBInv st)
    (hf : ∀ t, DBInv st → t.name = name →
      st ("/" ++ name) = some (.index t.records) → DBInv (f t st)) :
    DBInv (runTableOp name f st) := by
  unfold runTableOp
  cases hg : DB.get_table name st with
  | error e => exact h
  | ok t =>
    obtain ⟨hn, hi⟩ := get_table_inv hg
    exact hf t h hn hi

lemma DBInv_step {st st' : Store} (h : DBInv st) (hs : Step st st') : DBInv st' := by
  cases hs with
  | add_table name schema => exact DBInv_add_table name schema st h
  | remove_table name => exact DBInv_remove_table name st h
  | add_record name value draws =>
    exact DBInv_runTableOp name _ st h fun t h2 hn hi =>
      DBInv_add_record t st value draws h2 (by rw [hn]; exact hi)
  | upd_record name ident value =>
    exact DBInv_runTableOp name _ st h fun t h2 hn hi =>
      DBInv_upd_record t st ident value h2
  | del_record name ident =>
    exact DBInv_runTableOp name _ st h fun t h2 hn hi =>
      DBInv_del_record t st ident h2 (by rw [hn]; exact hi)
  | del_record_by_idx name idx =>
    exact DBInv_runTableOp name _ st h fun t h2 hn hi =>
      DBInv_del_record_by_idx t st idx h2 (by rw [hn]; exact hi)
  | upd_record_by_idx name idx value =>
    exact DBInv_runTableOp name _ st h fun t h2 hn hi =>
      DBInv_upd_record_by_idx t st idx value h2
  | add_column name column idxOpt =>
    exact DBInv_runTableOp name _ st h fun t h2 hn hi =>
      DBInv_add_column t st column idxOpt h2 (by rw [hn]; exact hi)
  | del_column name cname =>
    exact DBInv_runTableOp name _ st h fun t h2 hn hi =>
      DBInv_del_column t st cname h2 (by rw [hn]; exact hi)
  | move_column name cname idx =>
    exact DBInv_runTableOp name _ st h fun t h2 hn hi =>
      DBInv_move_column t st cname idx h2 (by rw [hn]; exact hi)
  | upd_column name old newc =>
    exact DBInv_runTableOp name _ st h fun t h2 hn hi =>
      DBInv_upd_column t st old newc h2 (by rw [hn]; exact hi)

/-- C8: record identifiers are unique across all tables of one database.
`add_record` rejects a candidate identifier whenever the blob key
`$<id>` exists anywhere in the substrate (the first conjunct — blob keys
are not namespaced by table), and in every reachable database state the
identifier indexes of two distinct keys are disjoint and each index is
duplicate-free. -/
theorem reachable_ids_unique (st : Store) (h : Reachable st) :
    (∀ (draws : List Nat) (k : Nat), genIdent st draws = some k →
      st.hasKey (blobKey k) = false)
    ∧ (∀ k1 k2 ids1 ids2, k1 ≠ k2 → st k1 = some (.index ids1) →
        st k2 = some (.index ids2) → ∀ id ∈ ids1, id ∉ ids2)
    ∧ (∀ k ids, st k = some (.index ids) → ids.Nodup) := by
  have hinv : DBInv st := by
    induction h with
    | refl => exact DBInv_init
    | tail hsteps hstep ih => exact DBInv_step ih hstep
  refine ⟨?_, hinv.disj, hinv.nodup⟩
  intro draws k hgen
  rw [Store.hasKey, genIdent_fresh draws st k hgen]
  rfl

theorem reachable_ids_unique_witness :
    Store.hasKey dbInit (blobKey 0) = false :=
  (reachable_ids_unique dbInit Relation.ReflTransGen.refl).1 [0] 0 (by decide)
